import Mathlib

/-! # csvparse: CSV rows decoded into records

A shallow embedding of `wrappers.go` and `decoder.go`.

* A Go string is a sequence of bytes (`GoString`); `len`, indexing and slicing count bytes,
  and a string literal of the source stands for its UTF-8 bytes (`goStr`).
* A Go function that can stop other than by returning a value yields an `Outcome`:
  a returned `error`, a run-time panic, or `log.Fatalln` ending the process.
* Functions of the Go standard library and of the name-splitting package that the
  repository calls but does not define (regular expressions supplied by struct tags, Unicode
  case mapping, `time.Parse`, `names.Parse`) are the fields of a `Lib` value.
-/

namespace Csvparse

/-! ## Strings and outcomes -/

/-- A Go string: an immutable sequence of bytes, each a natural number below 256. -/
abbrev GoString := List Nat

/-- UTF-8 encoding of one code point. -/
def utf8Encode (c : Char) : List Nat :=
  let n := c.toNat
  if n < 128 then [n]
  else if n < 2048 then [192 + n / 64, 128 + n % 64]
  else if n < 65536 then [224 + n / 4096, 128 + n / 64 % 64, 128 + n % 64]
  else [240 + n / 262144, 128 + n / 4096 % 64, 128 + n / 64 % 64, 128 + n % 64]

/-- The bytes of a string literal of the Go source. -/
def goStr (s : String) : GoString :=
  s.data.foldr (fun c acc => utf8Encode c ++ acc) []

/-- The run-time panics the embedded code can raise. -/
inductive Panic where
  /-- Index or slice bound out of range. -/
  | indexOutOfRange
  /-- The pattern given to `regexp.MustCompile` does not compile. -/
  | regexpCompile
  /-- A `reflect.Value` method that needs a valid value was called on the zero Value. -/
  | reflectInvalid
  /-- Call of `SetString` on a value whose kind is not String. -/
  | reflectKind
  /-- The value given to `reflect.Append` is not assignable to the element type. -/
  | reflectAssign
  /-- Call of `Set` on a value that is not addressable. -/
  | reflectUnaddressable
  deriving DecidableEq, Repr

/-- Why `csv.Reader.ReadAll` failed: the text is not well-formed CSV, or the record number
`k` (counted from 0) has not as many fields as the first record (`csv.ErrFieldCount`). -/
inductive ReadError where
  | malformed (msg : GoString)
  | fieldCount (k : Nat)
  deriving DecidableEq, Repr

/-- An `error` value: one made by `errors.New` or `fmt.Errorf` with the given text, or the
one `GetCSVRows` makes from a failure of the CSV reader. -/
inductive GoError where
  | text (msg : GoString)
  | unreadable (cause : ReadError)
  deriving DecidableEq, Repr

/-- How a call ends: with a value, with a returned `error`, with a panic, or with
`log.Fatalln` (the error is logged and the process exits). -/
inductive Outcome (α : Type) where
  | ok (a : α)
  | error (e : GoError)
  | panic (p : Panic)
  | fatal (e : GoError)
  deriving DecidableEq, Repr

/-- Sequencing: the continuation runs only after a value. -/
def Outcome.bind {α β : Type} (x : Outcome α) (f : α → Outcome β) : Outcome β :=
  match x with
  | .ok a => f a
  | .error e => .error e
  | .panic p => .panic p
  | .fatal e => .fatal e

/-- Index expression `xs[i]`: panics when `i` is not below `len(xs)`. -/
def goIndex {α : Type} (xs : List α) (i : Nat) : Outcome α :=
  match xs.get? i with
  | some x => .ok x
  | none => .panic .indexOutOfRange

/-- Slice expression `s[lo:hi]`: panics unless `lo ≤ hi ≤ len(s)`. -/
def goSlice (s : GoString) (lo hi : Nat) : Outcome GoString :=
  if lo ≤ hi ∧ hi ≤ s.length then .ok ((s.take hi).drop lo) else .panic .indexOutOfRange

/-! ## Standard-library string functions on byte strings -/

/-- Prefix test `strings.HasPrefix(s, pre)`. -/
def hasPrefix : GoString → GoString → Bool
  | _, [] => true
  | [], _ :: _ => false
  | b :: s, c :: pre => b == c && hasPrefix s pre

/-- Function `strings.TrimPrefix(s, pre)`: `s` without the leading `pre`, or `s` itself. -/
def stringsTrimPrefix (s pre : GoString) : GoString :=
  if hasPrefix s pre then s.drop pre.length else s

/-- Scan of `strings.Replace(s, old, new, -1)` for a non-empty `old`: occurrences are
replaced left to right without overlap; `skip` counts the bytes of the occurrence just
replaced that are still to be passed over. -/
def replaceScan (old new : GoString) : Nat → GoString → GoString
  | _, [] => []
  | skip + 1, _ :: s => replaceScan old new skip s
  | 0, b :: s =>
    if hasPrefix (b :: s) old then new ++ replaceScan old new (old.length - 1) s
    else b :: replaceScan old new 0 s

/-- Function `strings.Replace(s, old, new, -1)`, for a non-empty `old`. -/
def stringsReplaceAll (s old new : GoString) : GoString :=
  replaceScan old new 0 s

/-- Function `strings.Split(s, sep)` for a separator of one byte. -/
def stringsSplit (sep : Nat) : GoString → List GoString
  | [] => [[]]
  | b :: s =>
    if b = sep then [] :: stringsSplit sep s
    else
      match stringsSplit sep s with
      | [] => [[b]]
      | p :: ps => (b :: p) :: ps

/-! ## The regular expressions of `ParseZip` -/

/-- One position of the patterns of `ParseZip`: the class `[0-9]` or a literal byte. -/
inductive Item where
  | digit
  | lit (b : Nat)
  deriving DecidableEq, Repr

/-- Whether a byte is accepted at a position: `[0-9]` is the range '0' (48) to '9' (57). -/
def Item.accepts : Item → Nat → Bool
  | .digit, b => decide (48 ≤ b) && decide (b ≤ 57)
  | .lit c, b => b == c

/-- Match of `^i₁i₂…iₙ$` against the whole text (`$` without the `m` flag is the end of
the text). The flag `(?i)` changes nothing for digits, '-' and ' '. -/
def matchAnchored : List Item → GoString → Bool
  | [], [] => true
  | i :: is, b :: s => i.accepts b && matchAnchored is s
  | _, _ => false

/-- Pattern `(?i)^[0-9][0-9][0-9][0-9][0-9][0-9][0-9][0-9][0-9]$`. -/
def zip9 : List Item :=
  [.digit, .digit, .digit, .digit, .digit, .digit, .digit, .digit, .digit]

/-- Pattern `(?i)^[0-9][0-9][0-9][0-9][0-9]-[0-9][0-9][0-9][0-9]$`. -/
def zip5dash4 : List Item :=
  [.digit, .digit, .digit, .digit, .digit, .lit 45, .digit, .digit, .digit, .digit]

/-- Pattern `(?i)^[0-9][0-9][0-9][0-9][0-9] [0-9][0-9][0-9][0-9]$`. -/
def zip5space4 : List Item :=
  [.digit, .digit, .digit, .digit, .digit, .lit 32, .digit, .digit, .digit, .digit]

/-! ## wrappers.go: the pure helpers -/

/-- Loop of `TrimZeros`: `n` iterations of `s = strings.TrimPrefix(s, "0")`. -/
def trimZerosLoop : Nat → GoString → GoString
  | 0, s => s
  | n + 1, s => trimZerosLoop n (stringsTrimPrefix s (goStr "0"))

/-- Function `TrimZeros`: the loop runs `len(s)` times, `len` taken before the loop. -/
def TrimZeros (s : GoString) : GoString :=
  trimZerosLoop s.length s

/-- Function `ParseZip`. -/
def ParseZip (zip : GoString) : Outcome (GoString × GoString) :=
  if zip = [] then .ok ([], [])
  else if matchAnchored zip9 zip then
    (goSlice zip 0 5).bind fun a =>
    (goSlice zip 5 zip.length).bind fun b =>
    .ok (TrimZeros a, TrimZeros b)
  else if matchAnchored zip5dash4 zip then
    let zsplit := stringsSplit 45 zip
    (goIndex zsplit 0).bind fun a =>
    (goIndex zsplit 1).bind fun b =>
    .ok (TrimZeros a, TrimZeros b)
  else if matchAnchored zip5space4 zip then
    let zsplit := stringsSplit 32 zip
    (goIndex zsplit 0).bind fun a =>
    (goIndex zsplit 1).bind fun b =>
    .ok (TrimZeros a, TrimZeros b)
  else .ok (zip, [])

/-- The separators removed by `StripSep`, in the order of the source. -/
def sep : List GoString :=
  [goStr "\x27", goStr "#", goStr "%", goStr "$", goStr "-", goStr "+", goStr ".", goStr "*",
   goStr "(", goStr ")", goStr ":", goStr ";", goStr "\x7b", goStr "\x7d", goStr "|",
   goStr "&", goStr " "]

/-- Function `StripSep`. -/
def StripSep (p : GoString) : GoString :=
  sep.foldl (fun p v => stringsReplaceAll p v []) p

/-- Function `FormatPhone`; `fmt.Sprintf` with `%v` verbs concatenates the pieces. -/
def FormatPhone (p : GoString) : Outcome GoString :=
  let p := StripSep p
  if p.length = 10 then
    (goSlice p 0 3).bind fun a =>
    (goSlice p 3 6).bind fun b =>
    (goSlice p 6 10).bind fun c =>
    .ok (goStr "(" ++ a ++ goStr ") " ++ b ++ goStr "-" ++ c)
  else if p.length = 7 then
    (goSlice p 0 3).bind fun a =>
    (goSlice p 3 7).bind fun b =>
    .ok (a ++ goStr "-" ++ b)
  else .ok []

/-! ## Functions the repository calls but does not define -/

/-- A `time.Time` value, by the fields of the Go structure; all zero is `time.Time{}`. -/
structure Time where
  wall : Nat
  ext : Int
  loc : Option GoString
  deriving DecidableEq, Repr

/-- The zero value `time.Time{}`. -/
def Time.zero : Time := ⟨0, 0, none⟩

/-- The result of `names.Parse` (package go-name-parser), by the fields the decoder reads. -/
structure Name where
  FirstName : GoString
  MiddleName : GoString
  LastName : GoString
  deriving DecidableEq, Repr

/-- The library functions called by the repository.
* `matchString pattern text` is `regexp.MustCompile(pattern).MatchString(text)`, and is
  `none` when the pattern does not compile (`MustCompile` panics);
* `toLower`, `toUpper`, `title`, `trimSpace` are `strings.ToLower`, `strings.ToUpper`,
  `strings.Title`, `strings.TrimSpace`;
* `timeParse layout value` is `time.Parse`, `none` when it returns an error;
* `timeString` is `Time.String`, what `fmt.Sprint` prints for a time;
* `namesParse` is `names.Parse`. -/
structure Lib where
  matchString : GoString → GoString → Option Bool
  toLower : GoString → GoString
  toUpper : GoString → GoString
  title : GoString → GoString
  trimSpace : GoString → GoString
  timeParse : GoString → GoString → Option Time
  timeString : Time → GoString
  namesParse : GoString → Name

/-! ## wrappers.go: formatting, dates, the reader, the header check -/

/-- Function `TCase`. -/
def TCase (L : Lib) (f : GoString) : GoString :=
  L.trimSpace (L.title (L.toLower f))

/-- Function `UCase`. -/
def UCase (L : Lib) (f : GoString) : GoString :=
  L.trimSpace (L.toUpper f)

/-- Function `LCase`. -/
def LCase (L : Lib) (f : GoString) : GoString :=
  L.trimSpace (L.toLower f)

/-- Function `FormatStringVals`: the switch on the `fmt` tag. -/
def FormatStringVals (L : Lib) (format val : GoString) : Outcome GoString :=
  if format = goStr "tc" then .ok (TCase L val)
  else if format = goStr "uc" then .ok (UCase L val)
  else if format = goStr "lc" then .ok (LCase L val)
  else if format = goStr "fp" then FormatPhone val
  else if format = goStr "ss" then .ok (StripSep val)
  else .error (.text (goStr "Invalid string format: use [tc, uc, lc, fp, ss]"))

/-- The layouts tried by `ParseDate`, the last one being `time.RFC3339`. -/
def formats : List GoString :=
  [goStr "1/2/2006", goStr "1-2-2006", goStr "1/2/06", goStr "1-2-06", goStr "2006/1/2",
   goStr "2006-1-2", goStr "2006-01-02T15:04:05Z07:00"]

/-- Loop of `ParseDate` over the layouts: the first layout that parses decides. -/
def parseDateLoop (L : Lib) (d : GoString) : List GoString → Time
  | [] => Time.zero
  | f :: fs =>
    match L.timeParse f d with
    | some date => date
    | none => parseDateLoop L d fs

/-- Function `ParseDate`. -/
def ParseDate (L : Lib) (d : GoString) : Time :=
  if d ≠ [] then parseDateLoop L d formats else Time.zero

/-- A row of cells. -/
abbrev Row := List GoString

/-- What the CSV tokenizer finds in the reader: text that is not well-formed CSV, or the
records in order. -/
inductive Scan where
  | malformed (msg : GoString)
  | records (rs : List Row)
  deriving DecidableEq, Repr

/-- Index (counted from `k`) of the first record that has not `n` fields. -/
def firstMiscount (n : Nat) : Nat → List Row → Option Nat
  | _, [] => none
  | k, r :: rs => if r.length = n then firstMiscount n (k + 1) rs else some k

/-- Method `ReadAll` of the reader made by `csv.NewReader`, whose `FieldsPerRecord` is 0:
the first record sets the number of fields and every later record must have as many,
or `ReadAll` returns `ErrFieldCount` and no records. -/
def csvReadAll : Scan → Except ReadError (List Row)
  | .malformed msg => .error (.malformed msg)
  | .records [] => .ok []
  | .records (r :: rs) =>
    match firstMiscount r.length 1 rs with
    | none => .ok (r :: rs)
    | some k => .error (.fieldCount k)

/-- Function `GetCSVRows`. -/
def GetCSVRows (r : Scan) : Outcome (List Row) :=
  match csvReadAll r with
  | .error err => .error (.unreadable err)
  | .ok rows => .ok rows

/-- Loop of `CheckForDoubleHeaderNames`; `headerMap` holds the keys seen so far. -/
def checkLoop : List GoString → List GoString → Option GoError
  | _, [] => none
  | headerMap, v :: hdrs =>
    if headerMap.contains v then some (.text (goStr "Repeated header name: " ++ v))
    else checkLoop (v :: headerMap) hdrs

/-- Function `CheckForDoubleHeaderNames`: `none` is the `nil` error. -/
def CheckForDoubleHeaderNames (hdrs : List GoString) : Option GoError :=
  checkLoop [] hdrs

/-! ## decoder.go: schema, records, targets -/

/-- The type of a struct field, as far as the decoder tells types apart: `time.Time` or
not. The fields modelled are exported fields of type `string` or `time.Time`. -/
inductive FieldType where
  | string
  | time
  deriving DecidableEq, Repr

/-- A struct field: its name, its type, and the values of its `csv` and `fmt` tag keys
(`none` when `Tag.Lookup` reports the key absent). -/
structure Field where
  Name : GoString
  Kind : FieldType
  csv : Option GoString
  fmt : Option GoString
  deriving DecidableEq, Repr

/-- A struct type: its fields in declaration order. -/
abbrev Schema := List Field

/-- The value of a struct field. -/
inductive Value where
  | str (s : GoString)
  | time (t : Time)
  deriving DecidableEq, Repr

/-- A struct value: field names with their values, in declaration order. -/
abbrev Record := List (GoString × Value)

/-- The zero value of a field type. -/
def zeroValue : FieldType → Value
  | .string => .str []
  | .time => .time Time.zero

/-- Call `reflect.New(innerType)`: a struct with every field at its zero value. -/
def reflectNew (schema : Schema) : Record :=
  schema.map fun f => (f.Name, zeroValue f.Kind)

/-- Method `FieldByName`: `none` is the zero `reflect.Value` returned for a missing field. -/
def fieldByName : Record → GoString → Option Value
  | [], _ => none
  | (n, v) :: r, name => if n = name then some v else fieldByName r name

/-- The struct with the field `name` replaced by `v`. -/
def setField (name : GoString) (v : Value) : Record → Record
  | [] => []
  | (n, w) :: r => if n = name then (n, v) :: r else (n, w) :: setField name v r

/-- Call `FieldByName(name).SetString(s)`: panics on a missing field and on a field that
is not a string. -/
def SetString (r : Record) (name s : GoString) : Outcome Record :=
  match fieldByName r name with
  | none => .panic .reflectInvalid
  | some (.time _) => .panic .reflectKind
  | some (.str _) => .ok (setField name (.str s) r)

/-- Call `FieldByName(name).Set(reflect.ValueOf(t))` for a time `t`. -/
def SetTime (r : Record) (name : GoString) (t : Time) : Outcome Record :=
  match fieldByName r name with
  | none => .panic .reflectInvalid
  | some (.str _) => .panic .reflectAssign
  | some (.time _) => .ok (setField name (.time t) r)

/-- Method `Value.String`: the string held, or a description of the value. -/
def valueString : Option Value → GoString
  | none => goStr "<invalid Value>"
  | some (.str s) => s
  | some (.time _) => goStr "<time.Time Value>"

/-- Call `fmt.Sprint` on a `reflect.Value`: the value it holds is printed. -/
def fmtSprint (L : Lib) : Option Value → GoString
  | none => goStr "<invalid reflect.Value>"
  | some (.str s) => s
  | some (.time t) => L.timeString t

/-- The map `header` of the decoder: the entry found first is the current one. -/
abbrev HeaderMap := List (GoString × Nat)

/-- Map lookup `header[name]` with its `ok` flag. -/
def mapGet : HeaderMap → GoString → Option Nat
  | [], _ => none
  | (k, i) :: m, name => if k = name then some i else mapGet m name

/-- Map assignment `header[name] = i`. -/
def mapSet (m : HeaderMap) (name : GoString) (i : Nat) : HeaderMap :=
  (name, i) :: m

/-- Type `CSVDecoder`: the header map and the reader, the latter given by what the CSV
tokenizer finds in it at the next read. -/
structure CSVDecoder where
  header : HeaderMap
  file : Scan
  deriving DecidableEq, Repr

/-- Function `NewDecoder`. -/
def NewDecoder (input : Scan) : CSVDecoder :=
  { header := [], file := input }

/-- The argument `v` of `DecodeCSV`, after the pointer indirection of `CheckInterfaceValue`
and `GetInnerSliceType`:
* `notSlice`: the value is not a slice;
* `sliceOfOther`: a slice whose element type, one pointer removed, is not a struct;
* `sliceOfStruct addressable ptrElem schema items`: a slice of `schema` structs
  (`ptrElem = false`) or of pointers to them (`ptrElem = true`), holding `items`;
  it is addressable when `v` is a pointer to the slice. -/
inductive Target where
  | notSlice
  | sliceOfOther
  | sliceOfStruct (addressable ptrElem : Bool) (schema : Schema) (items : List Record)
  deriving DecidableEq, Repr

/-! ## decoder.go: DecodeCSV -/

/-- Inner loop of the binding pass, over the struct fields, for the header cell
`csvColumnHdr` at column `i`. -/
def bindFields (L : Lib) (i : Nat) (csvColumnHdr : GoString) :
    List Field → HeaderMap → Outcome HeaderMap
  | [], header => .ok header
  | f :: fs, header =>
    match f.csv with
    | some rgx =>
      let regex := if rgx = goStr "-" then f.Name else rgx
      match L.matchString regex csvColumnHdr with
      | none => .panic .regexpCompile
      | some true => bindFields L i csvColumnHdr fs (mapSet header f.Name i)
      | some false => bindFields L i csvColumnHdr fs header
    | none => bindFields L i csvColumnHdr fs header

/-- Outer loop of the binding pass, over the header cells from column `i` on. -/
def bindHeader (L : Lib) (schema : Schema) : Nat → Row → HeaderMap → Outcome HeaderMap
  | _, [], header => .ok header
  | i, csvColumnHdr :: rest, header =>
    (bindFields L i csvColumnHdr schema header).bind fun header2 =>
    bindHeader L schema (i + 1) rest header2

/-- The type switch of the row loop for one field: the per-field pass. -/
def assignField (L : Lib) (header : HeaderMap) (csvRow : Row) (f : Field) (r : Record) :
    Outcome Record :=
  match f.Kind with
  | .time =>
    match mapGet header f.Name with
    | some c =>
      (goIndex csvRow c).bind fun cell => SetTime r f.Name (ParseDate L cell)
    | none => .ok r
  | .string =>
    match mapGet header f.Name with
    | some c =>
      match f.fmt with
      | some format =>
        if format ≠ goStr "-" then
          (goIndex csvRow c).bind fun val =>
          match FormatStringVals L format val with
          | .ok fmtvalue => SetString r f.Name fmtvalue
          | .error err => .fatal err
          | .panic p => .panic p
          | .fatal err => .fatal err
        else
          (goIndex csvRow c).bind fun val => SetString r f.Name val
      | none => .ok r
    | none => .ok r

/-- The block run at the last field (`j == NumField()-1`): name and postal code. -/
def postProcess (L : Lib) (r : Record) : Outcome Record :=
  let FullN := fieldByName r (goStr "Fullname")
  let FN := fieldByName r (goStr "Firstname")
  let LN := fieldByName r (goStr "Lastname")
  (if valueString FullN ≠ [] ∧ (valueString FN = [] ∨ valueString LN = []) then
    let name := L.namesParse (valueString FullN)
    (SetString r (goStr "Firstname") name.FirstName).bind fun r1 =>
    (SetString r1 (goStr "MI") name.MiddleName).bind fun r2 =>
    SetString r2 (goStr "Lastname") name.LastName
  else .ok r).bind fun r3 =>
  if fmtSprint L (fieldByName r3 (goStr "Zip")) ≠ [] then
    (ParseZip (fmtSprint L (fieldByName r3 (goStr "Zip")))).bind fun z =>
    (SetString r3 (goStr "Zip") z.1).bind fun r4 =>
    if valueString (fieldByName r4 (goStr "Zp4")) ≠ [] then
      SetString r4 (goStr "Zip4") z.2
    else .ok r4
  else .ok r3

/-- Loop over the fields of one row, from field number `j`; `n` is `NumField()`. -/
def fieldLoop (L : Lib) (header : HeaderMap) (csvRow : Row) (n : Nat) :
    Nat → List Field → Record → Outcome Record
  | _, [], r => .ok r
  | j, f :: fs, r =>
    (assignField L header csvRow f r).bind fun r1 =>
    (if j = n - 1 then postProcess L r1 else .ok r1).bind fun r2 =>
    fieldLoop L header csvRow n (j + 1) fs r2

/-- The record made from one data row: the body of the row loop before the append. -/
def materialize (L : Lib) (header : HeaderMap) (schema : Schema) (csvRow : Row) :
    Outcome Record :=
  fieldLoop L header csvRow schema.length 0 schema (reflectNew schema)

/-- Statement `slice.Set(reflect.Append(slice, innerValueRow))`; `innerValueRow` is a
pointer to the struct, so `Append` panics on a slice of structs, and `Set` panics on a
slice that is not addressable. -/
def appendRecord (addressable ptrElem : Bool) (slice : List Record) (r : Record) :
    Outcome (List Record) :=
  if ptrElem = false then .panic .reflectAssign
  else if addressable = false then .panic .reflectUnaddressable
  else .ok (slice ++ [r])

/-- The row loop over `body`. -/
def rowLoop (L : Lib) (header : HeaderMap) (schema : Schema) (addressable ptrElem : Bool) :
    List Row → List Record → Outcome (List Record)
  | [], slice => .ok slice
  | csvRow :: rest, slice =>
    (materialize L header schema csvRow).bind fun r =>
    (appendRecord addressable ptrElem slice r).bind fun slice2 =>
    rowLoop L header schema addressable ptrElem rest slice2

/-- Method `DecodeCSV`. On return the decoder holds the header map as bound and a reader
read to its end, and the result carries the contents of the target slice. -/
def DecodeCSV (L : Lib) (d : CSVDecoder) (v : Target) :
    Outcome (CSVDecoder × List Record) :=
  (GetCSVRows d.file).bind fun csvRows =>
  match csvRows with
  | [] => .error (.text (goStr "empty csv file"))
  | headerRow :: body =>
    match CheckForDoubleHeaderNames headerRow with
    | some err => .error err
    | none =>
      match v with
      | .notSlice => .error (.text (goStr "Only slice types are permited"))
      | .sliceOfOther => .error (.text (goStr "Only slice of stucts type permited"))
      | .sliceOfStruct addressable ptrElem schema items =>
        (bindHeader L schema 0 headerRow d.header).bind fun header =>
        (rowLoop L header schema addressable ptrElem body items).bind fun slice =>
        .ok ({ header := header, file := .records [] }, slice)

/-! ## A library fragment for concrete runs -/

/-- Whether a byte is an ASCII letter or digit. -/
def isAlnum (b : Nat) : Bool :=
  (decide (48 ≤ b) && decide (b ≤ 57)) || (decide (65 ≤ b) && decide (b ≤ 90)) ||
    (decide (97 ≤ b) && decide (b ≤ 122))

/-- Whether `pat` occurs in `s` as a substring. -/
def containsSub (pat : GoString) : GoString → Bool
  | [] => hasPrefix [] pat
  | b :: s => hasPrefix (b :: s) pat || containsSub pat s

/-- ASCII lower case of one byte. -/
def asciiLower (b : Nat) : Nat :=
  if 65 ≤ b ∧ b ≤ 90 then b + 32 else b

/-- ASCII upper case of one byte. -/
def asciiUpper (b : Nat) : Nat :=
  if 97 ≤ b ∧ b ≤ 122 then b - 32 else b

/-- Whether a byte is ASCII white space: tab, line feed, vertical tab, form feed,
carriage return, space. -/
def asciiSpace (b : Nat) : Bool :=
  (decide (9 ≤ b) && decide (b ≤ 13)) || b == 32

/-- Title case of ASCII text: a letter is raised when the byte before it is neither a
letter, a digit nor an underscore. -/
def asciiTitle : Bool → GoString → GoString
  | _, [] => []
  | start, b :: s => (if start then asciiUpper b else b) :: asciiTitle (!(isAlnum b || b == 95)) s

/-- The library restricted to what the concrete runs of this file use. It agrees with Go on
these inputs: a pattern of ASCII letters and digits matches a text when it occurs in it,
and the pattern `(` does not compile; the case functions and `trimSpace` are those of
ASCII text. Every other pattern is answered as not compiling, no value parses as a time,
and no name is split: the runs below have no such pattern, no time field and no full name. -/
def asciiLib : Lib where
  matchString pat text := if pat.all isAlnum then some (containsSub pat text) else none
  toLower s := s.map asciiLower
  toUpper s := s.map asciiUpper
  title s := asciiTitle true s
  trimSpace s := ((s.dropWhile asciiSpace).reverse.dropWhile asciiSpace).reverse
  timeParse _ _ := none
  timeString _ := goStr "0001-01-01 00:00:00 +0000 UTC"
  namesParse _ := ⟨[], [], []⟩

/-! ## The postal splitter as the specification words it -/

/-- Whether a byte is an ASCII digit. -/
def isDigit (b : Nat) : Bool := decide (48 ≤ b ∧ b ≤ 57)

/-- Exactly nine ASCII digits. -/
def nineDigits (s : GoString) : Bool :=
  s.length == 9 && s.all isDigit

/-- Five ASCII digits, the byte `c`, four ASCII digits. -/
def fivePlusFour (c : Nat) (s : GoString) : Bool :=
  s.length == 10 && (s.take 5).all isDigit && s.get? 5 == some c && (s.drop 6).all isDigit

/-- The reference of the postal splitter, as the specification words it. -/
def parseZipRef (s : GoString) : GoString × GoString :=
  if s = [] then ([], [])
  else if nineDigits s ∨ fivePlusFour 45 s ∨ fivePlusFour 32 s then
    (TrimZeros (s.take 5), TrimZeros (s.drop (s.length - 4)))
  else (s, [])

/-! ## Schemas and inputs of the concrete runs -/

/-- The behaviour of Go regular expressions on patterns without metacharacters: a pattern
of ASCII letters and digits compiles, and matches a text exactly when it occurs in it. -/
def LiteralPatterns (L : Lib) : Prop :=
  ∀ pat text : GoString, pat.all isAlnum = true →
    L.matchString pat text = some (containsSub pat text)

/-- The schema of the end-to-end example: `Fullname` bound by "Name" and `Zip` bound by
"Zip", both without `fmt` tag, `Phone` bound by "Phone" with `fmt:"fp"`, and `Zip4`
without tags. -/
def endToEndSchema : Schema :=
  [⟨goStr "Fullname", .string, some (goStr "Name"), none⟩,
   ⟨goStr "Phone", .string, some (goStr "Phone"), some (goStr "fp")⟩,
   ⟨goStr "Zip", .string, some (goStr "Zip"), none⟩,
   ⟨goStr "Zip4", .string, none, none⟩]

/-- The input of the end-to-end example: the header row and one data row. -/
def endToEndInput : Scan :=
  .records [[goStr "Name", goStr "Phone", goStr "Zip"],
            [goStr "john doe", goStr "9493237895", goStr "92882-1234"]]

/-- A schema with a postal code assigned raw (`csv:"Zip" fmt:"-"`) and a plus-4 field
without tags. -/
def zipSchema : Schema :=
  [⟨goStr "Zip", .string, some (goStr "Zip"), some (goStr "-")⟩,
   ⟨goStr "Zip4", .string, none, none⟩]

/-! ## Binding: the words of the specification -/

/-- The pattern a field is bound by: its own name when the `csv` tag is the sentinel "-",
the tag otherwise. -/
def bindingPattern (f : Field) (rgx : GoString) : GoString :=
  if rgx = goStr "-" then f.Name else rgx

/-- Column `k` is the largest column index whose header cell matches `pat`. -/
def IsLastMatch (L : Lib) (pat : GoString) (headerRow : Row) (k : Nat) : Prop :=
  (∃ cell, headerRow.get? k = some cell ∧ L.matchString pat cell = some true) ∧
  ∀ j cell, k < j → headerRow.get? j = some cell → L.matchString pat cell ≠ some true

/-- Whether `cell` matches the binding pattern of a field of `fs` that is named `name`. -/
def hits (L : Lib) (fs : List Field) (name cell : GoString) : Bool :=
  fs.any fun f =>
    decide (f.Name = name) &&
      match f.csv with
      | some rgx => L.matchString (bindingPattern f rgx) cell == some true
      | none => false

/-- The index, counted from `i`, of the last cell that satisfies `p`, or `acc` when no cell
does. -/
def lastIndexFrom (p : GoString → Bool) : Nat → Row → Option Nat → Option Nat
  | _, [], acc => acc
  | i, c :: cs, acc => lastIndexFrom p (i + 1) cs (if p c then some i else acc)

/-! ## The per-field pass, apart from the block run at the last field -/

/-- The type switch applied to the fields in order: the row loop's body without the
cross-field block. -/
def perFieldPass (L : Lib) (header : HeaderMap) (csvRow : Row) :
    List Field → Record → Outcome Record
  | [], r => .ok r
  | f :: fs, r =>
    (assignField L header csvRow f r).bind fun r1 => perFieldPass L header csvRow fs r1

/-- The directives `FormatStringVals` recognises. -/
def recognised : List GoString :=
  [goStr "tc", goStr "uc", goStr "lc", goStr "fp", goStr "ss"]

/-- The type of a field value. -/
def kindOf : Value → FieldType
  | .str _ => .string
  | .time _ => .time

/-- The field names and types of a struct value. -/
def shape (r : Record) : List (GoString × FieldType) :=
  r.map fun p => (p.1, kindOf p.2)

/-- The field names and types of a struct type. -/
def schemaShape (schema : Schema) : List (GoString × FieldType) :=
  schema.map fun f => (f.Name, f.Kind)

/-- A schema whose binding pattern `(` is not a regular expression. -/
def badPatternSchema : Schema :=
  [⟨goStr "Zip", .string, some (goStr "("), none⟩]

/-- A schema with a postal code, a plus-4 field and a city; `Zip` and `City` are bound and
assigned raw. -/
def citySchema : Schema :=
  [⟨goStr "Zip", .string, some (goStr "Zip"), some (goStr "-")⟩,
   ⟨goStr "Zip4", .string, none, none⟩,
   ⟨goStr "City", .string, some (goStr "City"), some (goStr "-")⟩]

/-- The call does not end in an out-of-range panic. -/
def NoIndexFault {α : Type} (x : Outcome α) : Prop :=
  x ≠ .panic .indexOutOfRange

/-! ## Separators and leading zeros: the words of the specification -/

/-- The characters the specification lists for `StripSep`: ' # % $ - + . * ( ) : ; { } | &
and the space, each a single byte. -/
def sepBytes : List Nat :=
  goStr "\x27#%$-+.*():;\x7b\x7d|& "

/-- A string repeating the byte '0' (48) `k` times. -/
def zeros (k : Nat) : GoString :=
  List.replicate k 48

/-- The text of the error of `FormatStringVals`. -/
def invalidFormatText : GoString :=
  goStr "Invalid string format: use [tc, uc, lc, fp, ss]"

/-- The library fragment with `time.Parse` known at one value: "12-31-2003" parses under
the layout "1-2-2006", as midnight UTC of 31 December 2003 (63208425600 seconds after the
start of year 1), and under no layout tried before it. -/
def dateLib : Lib :=
  { asciiLib with
    timeParse := fun layout value =>
      if layout = goStr "1-2-2006" ∧ value = goStr "12-31-2003" then
        some ⟨0, 63208425600, none⟩
      else none }

/-- A schema without `csv` tags: a postal code that would be assigned raw (`fmt:"-"`) and a
plus-4 field. -/
def untaggedSchema : Schema :=
  [⟨goStr "Zip", .string, none, some (goStr "-")⟩,
   ⟨goStr "Zip4", .string, none, none⟩]

/-- The same schema with the sentinel tag `csv:"-"` on the postal code. -/
def sentinelSchema : Schema :=
  [⟨goStr "Zip", .string, some (goStr "-"), some (goStr "-")⟩,
   ⟨goStr "Zip4", .string, none, none⟩]

/-- An input of one of the three 5+4 shapes. -/
def FivePlusFourShape (s : GoString) : Prop :=
  nineDigits s = true ∨ fivePlusFour 45 s = true ∨ fivePlusFour 32 s = true

/-! ## Decoders that differ in their header map -/

/-- The records of the outcome of a decode, the decoder left aside. -/
def recordsOf (x : Outcome (CSVDecoder × List Record)) : Outcome (List Record) :=
  x.bind fun p => .ok p.2

/-- Two header maps hold the same entry for every field name of the schema. -/
def AgreeOn (schema : Schema) (m1 m2 : HeaderMap) : Prop :=
  ∀ f ∈ schema, mapGet m1 f.Name = mapGet m2 f.Name

/-- Two binding passes end the same way, with maps that agree on the schema's names. -/
def SameBinding (schema : Schema) (x y : Outcome HeaderMap) : Prop :=
  match x, y with
  | .ok m1, .ok m2 => AgreeOn schema m1 m2
  | .error e1, .error e2 => e1 = e2
  | .panic p1, .panic p2 => p1 = p2
  | .fatal e1, .fatal e2 => e1 = e2
  | _, _ => False

/-- An input whose header row has the columns `Zip` and `Town`. -/
def townInput : Scan :=
  .records [[goStr "Zip", goStr "Town"], [goStr "92882", goStr "Corona"]]

/-! ## Title case of ASCII text -/

/-- Whether a byte is an ASCII upper-case letter. -/
def isUpperLetter (b : Nat) : Bool :=
  decide (65 ≤ b) && decide (b ≤ 90)

/-- Whether a byte is an ASCII lower-case letter. -/
def isLowerLetter (b : Nat) : Bool :=
  decide (97 ≤ b) && decide (b ≤ 122)

/-- Whether a byte continues a word for `strings.Title`: a letter, a digit or '_'. -/
def isWordByte (b : Nat) : Bool :=
  isAlnum b || b == 95

/-- A token that starts with an upper-case letter and has no upper-case letter after it:
the least that "an uppercase letter followed by lowercase" asks of a token. -/
def capitalised : GoString → Bool
  | [] => false
  | b :: rest => isUpperLetter b && rest.all fun c => !isUpperLetter c

/-- No lower-case letter begins a word and no upper-case letter continues one; a word
begins at the start of the text (when `start` holds) and after every byte that is not a
letter, a digit or '_'. -/
def titled : Bool → GoString → Bool
  | _, [] => true
  | start, b :: s =>
    (if start then !isLowerLetter b else !isUpperLetter b) && titled (!isWordByte b) s

/-- Text without leading and trailing ASCII white space. -/
def trimAscii (s : GoString) : GoString :=
  ((s.dropWhile asciiSpace).reverse.dropWhile asciiSpace).reverse

/-- The behaviour of `strings.ToLower`, `strings.Title` and `strings.TrimSpace` on ASCII
text. -/
def AsciiText (L : Lib) : Prop :=
  ∀ s : GoString, (∀ b ∈ s, b < 128) →
    L.toLower s = s.map asciiLower ∧ L.title s = asciiTitle true s ∧
      L.trimSpace s = trimAscii s

/-! ## strings.TrimSpace on byte strings -/

/-- The rune U+FFFD, which the decoders return for bytes that are not an encoding. -/
def runeError : Nat := 65533

/-- Whether a byte is a UTF-8 continuation byte (10xxxxxx). -/
def isCont (b : Nat) : Bool :=
  decide (128 ≤ b) && decide (b < 192)

/-- Lower bound that `utf8.DecodeRune` sets on the second byte after the first byte `s0`. -/
def acceptLo (s0 : Nat) : Nat :=
  if s0 = 224 then 160 else if s0 = 240 then 144 else 128

/-- Upper bound that `utf8.DecodeRune` sets on the second byte after the first byte `s0`. -/
def acceptHi (s0 : Nat) : Nat :=
  if s0 = 237 then 159 else if s0 = 244 then 143 else 191

/-- Function `utf8.DecodeRuneInString`: the first rune of the text and its width in bytes;
`(runeError, 1)` for bytes that are not an encoding, `(runeError, 0)` for the empty text. -/
def decodeRune : GoString → Nat × Nat
  | [] => (runeError, 0)
  | s0 :: rest =>
    if s0 < 128 then (s0, 1)
    else if s0 < 194 ∨ 244 < s0 then (runeError, 1)
    else if s0 < 224 then
      match rest with
      | s1 :: _ => if isCont s1 then (s0 % 32 * 64 + s1 % 64, 2) else (runeError, 1)
      | [] => (runeError, 1)
    else if s0 < 240 then
      match rest with
      | s1 :: s2 :: _ =>
        if acceptLo s0 ≤ s1 ∧ s1 ≤ acceptHi s0 ∧ isCont s2 = true then
          (s0 % 16 * 4096 + s1 % 64 * 64 + s2 % 64, 3)
        else (runeError, 1)
      | _ => (runeError, 1)
    else
      match rest with
      | s1 :: s2 :: s3 :: _ =>
        if acceptLo s0 ≤ s1 ∧ s1 ≤ acceptHi s0 ∧ isCont s2 = true ∧ isCont s3 = true then
          (s0 % 8 * 262144 + s1 % 64 * 4096 + s2 % 64 * 64 + s3 % 64, 4)
        else (runeError, 1)
      | _ => (runeError, 1)

/-- The scan of `utf8.DecodeLastRuneInString` for the start of the last rune, on the
reversed text: the bytes before the last one are looked at, at most three of them, for one
that is not a continuation byte; the result is the number of bytes from the start found to
the end of the text (one byte before the scanned ones, or the whole text, when none is
found). -/
def lastStartWidth : GoString → Nat
  | [] => 0
  | [_] => 1
  | _ :: b1 :: tl1 =>
    if isCont b1 = false then 2
    else
      match tl1 with
      | [] => 2
      | b2 :: tl2 =>
        if isCont b2 = false then 3
        else
          match tl2 with
          | [] => 3
          | b3 :: tl3 =>
            if isCont b3 = false then 4
            else
              match tl3 with
              | [] => 4
              | _ :: _ => 5

/-- Function `utf8.DecodeLastRuneInString`: the last rune of the text and its width. -/
def decodeLastRune (s : GoString) : Nat × Nat :=
  match s.reverse with
  | [] => (runeError, 0)
  | last :: tl =>
    if last < 128 then (last, 1)
    else
      let k := lastStartWidth (last :: tl)
      let d := decodeRune ((last :: tl).take k).reverse
      if d.2 = k then d else (runeError, 1)

/-- Function `unicode.IsSpace`: the Latin-1 white space, and beyond it the characters with
the property White_Space. -/
def isSpaceRune (r : Nat) : Bool :=
  if r ≤ 255 then
    (decide (9 ≤ r) && decide (r ≤ 13)) || r == 32 || r == 133 || r == 160
  else
    r == 5760 || (decide (8192 ≤ r) && decide (r ≤ 8202)) || r == 8232 || r == 8233 ||
      r == 8239 || r == 8287 || r == 12288

/-- Function `strings.TrimLeftFunc(s, unicode.IsSpace)`: runes are taken off the start
while they are white space; `n` bounds the number of runes. -/
def trimLeftLoop : Nat → GoString → GoString
  | 0, s => s
  | n + 1, s =>
    if isSpaceRune (decodeRune s).1 then trimLeftLoop n (s.drop (decodeRune s).2) else s

/-- Function `strings.TrimRightFunc(s, unicode.IsSpace)`: runes are taken off the end
while they are white space; `n` bounds the number of runes. -/
def trimRightLoop : Nat → GoString → GoString
  | 0, s => s
  | n + 1, s =>
    if isSpaceRune (decodeLastRune s).1 then
      trimRightLoop n (s.take (s.length - (decodeLastRune s).2))
    else s

/-- Function `strings.TrimSpace`, that is `strings.TrimFunc(s, unicode.IsSpace)`: the
white space is taken off the start, then off the end. -/
def stringsTrimSpace (s : GoString) : GoString :=
  trimRightLoop s.length (trimLeftLoop s.length s)

/-- The text begins with the UTF-8 encoding of a white-space character. -/
def startsWithSpace (s : GoString) : Prop :=
  ∃ c : Char, isSpaceRune c.toNat = true ∧ utf8Encode c <+: s

/-- The text ends with the UTF-8 encoding of a white-space character. -/
def endsWithSpace (s : GoString) : Prop :=
  ∃ c : Char, isSpaceRune c.toNat = true ∧ utf8Encode c <:+ s

/-- The library `asciiLib` with `trimSpace` replaced by the `strings.TrimSpace` of all byte
strings. Its `toLower` and `title` are still those of ASCII text, so that it agrees with Go
in all three functions on ASCII text, and in `trimSpace` on every text. -/
def trimLib : Lib :=
  { asciiLib with trimSpace := stringsTrimSpace }

/-! ## Theorems -/

/-! ### ParseZip -/

theorem matchAnchored_zip9 (s : GoString) : matchAnchored zip9 s = nineDigits s := by
  rcases s with _|⟨b0,_|⟨b1,_|⟨b2,_|⟨b3,_|⟨b4,_|⟨b5,_|⟨b6,_|⟨b7,_|⟨b8,_|⟨b9,t⟩⟩⟩⟩⟩⟩⟩⟩⟩⟩ <;>
    simp [matchAnchored, zip9, nineDigits, Item.accepts, isDigit, Bool.and_assoc]

theorem matchAnchored_five (c : Nat) (s : GoString) :
    matchAnchored [.digit, .digit, .digit, .digit, .digit, .lit c, .digit, .digit, .digit, .digit] s
      = fivePlusFour c s := by
  rcases s with _|⟨b0,_|⟨b1,_|⟨b2,_|⟨b3,_|⟨b4,_|⟨b5,_|⟨b6,_|⟨b7,_|⟨b8,_|⟨b9,_|⟨b10,t⟩⟩⟩⟩⟩⟩⟩⟩⟩⟩⟩ <;>
    simp [matchAnchored, fivePlusFour, Item.accepts, isDigit, Bool.and_assoc]

theorem ParseZip_unfold (s : GoString) :
    ParseZip s =
      if s = [] then .ok ([], [])
      else if nineDigits s then
        (goSlice s 0 5).bind fun a =>
        (goSlice s 5 s.length).bind fun b => .ok (TrimZeros a, TrimZeros b)
      else if fivePlusFour 45 s then
        (goIndex (stringsSplit 45 s) 0).bind fun a =>
        (goIndex (stringsSplit 45 s) 1).bind fun b => .ok (TrimZeros a, TrimZeros b)
      else if fivePlusFour 32 s then
        (goIndex (stringsSplit 32 s) 0).bind fun a =>
        (goIndex (stringsSplit 32 s) 1).bind fun b => .ok (TrimZeros a, TrimZeros b)
      else .ok (s, []) := by
  have e1 : zip5dash4 =
      [.digit, .digit, .digit, .digit, .digit, .lit 45, .digit, .digit, .digit, .digit] := rfl
  have e2 : zip5space4 =
      [.digit, .digit, .digit, .digit, .digit, .lit 32, .digit, .digit, .digit, .digit] := rfl
  unfold ParseZip
  rw [matchAnchored_zip9, e1, e2, matchAnchored_five, matchAnchored_five]

theorem ParseZip_of_nine (s : GoString) (h9 : nineDigits s = true) :
    ParseZip s = .ok (TrimZeros (s.take 5), TrimZeros (s.drop (s.length - 4))) := by
  rw [ParseZip_unfold]
  rcases s with _|⟨b0,_|⟨b1,_|⟨b2,_|⟨b3,_|⟨b4,_|⟨b5,_|⟨b6,_|⟨b7,_|⟨b8,_|⟨b9,t⟩⟩⟩⟩⟩⟩⟩⟩⟩⟩ <;>
    simp [nineDigits] at h9
  have h9' : nineDigits [b0, b1, b2, b3, b4, b5, b6, b7, b8] = true := by
    simp [nineDigits, h9]
  simp [h9', goSlice, Outcome.bind]

theorem stringsSplit_five (c : Nat) (hc : c < 48) (s : GoString)
    (h : fivePlusFour c s = true) :
    s ≠ [] ∧ nineDigits s = false ∧
    goIndex (stringsSplit c s) 0 = .ok (s.take 5) ∧
    goIndex (stringsSplit c s) 1 = .ok (s.drop (s.length - 4)) := by
  rcases s with _|⟨b0,_|⟨b1,_|⟨b2,_|⟨b3,_|⟨b4,_|⟨b5,_|⟨b6,_|⟨b7,_|⟨b8,_|⟨b9,_|⟨b10,t⟩⟩⟩⟩⟩⟩⟩⟩⟩⟩⟩ <;>
    simp [fivePlusFour, isDigit] at h
  have e5 : b5 = c := h.1.2
  subst e5
  have n0 : b0 ≠ b5 := by omega
  have n1 : b1 ≠ b5 := by omega
  have n2 : b2 ≠ b5 := by omega
  have n3 : b3 ≠ b5 := by omega
  have n4 : b4 ≠ b5 := by omega
  have n6 : b6 ≠ b5 := by omega
  have n7 : b7 ≠ b5 := by omega
  have n8 : b8 ≠ b5 := by omega
  have n9 : b9 ≠ b5 := by omega
  simp [nineDigits, stringsSplit, goIndex, n0, n1, n2, n3, n4, n6, n7, n8, n9]

theorem ParseZip_of_five (c : Nat) (hc : c = 45 ∨ c = 32) (s : GoString)
    (h : fivePlusFour c s = true) :
    ParseZip s = .ok (TrimZeros (s.take 5), TrimZeros (s.drop (s.length - 4))) := by
  obtain ⟨h0, h9, ha, hb⟩ := stringsSplit_five c (by omega) s h
  rw [ParseZip_unfold]
  rcases hc with rfl | rfl
  · simp [h0, h9, h, ha, hb, Outcome.bind]
  · by_cases hd : fivePlusFour 45 s = true
    · obtain ⟨-, -, ha', hb'⟩ := stringsSplit_five 45 (by omega) s hd
      simp [h0, h9, hd, ha', hb', Outcome.bind]
    · simp [h0, h9, hd, h, ha, hb, Outcome.bind]

theorem ParseZip_total (s : GoString) : ∃ z, ParseZip s = .ok z := by
  by_cases h0 : s = []
  · exact ⟨([], []), by simp [ParseZip, h0]⟩
  · by_cases h9 : nineDigits s = true
    · exact ⟨_, ParseZip_of_nine s h9⟩
    · by_cases hd : fivePlusFour 45 s = true
      · exact ⟨_, ParseZip_of_five 45 (Or.inl rfl) s hd⟩
      · by_cases hs : fivePlusFour 32 s = true
        · exact ⟨_, ParseZip_of_five 32 (Or.inr rfl) s hs⟩
        · exact ⟨(s, []), by rw [ParseZip_unfold]; simp [h0, h9, hd, hs]⟩

/-- C1: for every string, `ParseZip` returns (it does not panic) and its result is the
reference: two empty strings for the empty string; the zero-trimmed first five and last four
digits for nine digits, five digits + '-' + four digits, five digits + ' ' + four digits;
the string unchanged and an empty second part for every other string. -/
theorem ParseZip_refines (s : GoString) : ParseZip s = .ok (parseZipRef s) := by
  unfold parseZipRef
  by_cases h0 : s = []
  · simp [ParseZip, h0]
  · simp only [h0, if_false]
    by_cases h9 : nineDigits s = true
    · rw [ParseZip_of_nine s h9]
      simp [h9]
    · by_cases hd : fivePlusFour 45 s = true
      · rw [ParseZip_of_five 45 (Or.inl rfl) s hd]
        simp [hd]
      · by_cases hs : fivePlusFour 32 s = true
        · rw [ParseZip_of_five 32 (Or.inr rfl) s hs]
          simp [hs]
        · rw [ParseZip_unfold]
          simp [h0, h9, hd, hs]

/-! ### FormatPhone -/

/-- C2: with `q = StripSep p`: if `q` is the ten bytes `a ++ b ++ c` (three, three, four) the
result is `(a) b-c`; if `q` is the seven bytes `b ++ c` (three, four) the result is `b-c`;
if the length of `q` is neither 10 nor 7 the result is the empty string. No case is an
error or a panic. -/
theorem FormatPhone_spec (p : GoString) :
    (∀ a b c : GoString, a.length = 3 → b.length = 3 → c.length = 4 →
      StripSep p = a ++ b ++ c →
      FormatPhone p = .ok (goStr "(" ++ a ++ goStr ") " ++ b ++ goStr "-" ++ c)) ∧
    (∀ b c : GoString, b.length = 3 → c.length = 4 → StripSep p = b ++ c →
      FormatPhone p = .ok (b ++ goStr "-" ++ c)) ∧
    ((StripSep p).length ≠ 10 → (StripSep p).length ≠ 7 → FormatPhone p = .ok []) := by
  refine ⟨?_, ?_, ?_⟩
  · intro a b c ha hb hc hq
    rcases a with _ | ⟨a0, _ | ⟨a1, _ | ⟨a2, _ | ⟨a3, ta⟩⟩⟩⟩ <;> simp at ha
    rcases b with _ | ⟨b0, _ | ⟨b1, _ | ⟨b2, _ | ⟨b3, tb⟩⟩⟩⟩ <;> simp at hb
    rcases c with _ | ⟨c0, _ | ⟨c1, _ | ⟨c2, _ | ⟨c3, _ | ⟨c4, tc⟩⟩⟩⟩⟩ <;> simp at hc
    simp [FormatPhone, hq, goSlice, Outcome.bind]
  · intro b c hb hc hq
    rcases b with _ | ⟨b0, _ | ⟨b1, _ | ⟨b2, _ | ⟨b3, tb⟩⟩⟩⟩ <;> simp at hb
    rcases c with _ | ⟨c0, _ | ⟨c1, _ | ⟨c2, _ | ⟨c3, _ | ⟨c4, tc⟩⟩⟩⟩⟩ <;> simp at hc
    simp [FormatPhone, hq, goSlice, Outcome.bind]
  · intro h10 h7
    simp [FormatPhone, h10, h7]

/-- C2 at the phone numbers of the tests: ten digits, seven digits, five digits. -/
theorem FormatPhone_spec_witness :
    FormatPhone (goStr "9493237895") = .ok (goStr "(949) 323-7895") ∧
    FormatPhone (goStr "3237895") = .ok (goStr "323-7895") ∧
    FormatPhone (goStr "94932") = .ok [] :=
  ⟨(FormatPhone_spec (goStr "9493237895")).1 (goStr "949") (goStr "323") (goStr "7895")
      (by decide) (by decide) (by decide) (by decide),
   (FormatPhone_spec (goStr "3237895")).2.1 (goStr "323") (goStr "7895")
      (by decide) (by decide) (by decide),
   (FormatPhone_spec (goStr "94932")).2.2 (by decide) (by decide)⟩

/-! ### CheckForDoubleHeaderNames -/

theorem checkLoop_eq_none (seen hdrs : List GoString) :
    checkLoop seen hdrs = none ↔ hdrs.Nodup ∧ ∀ v ∈ hdrs, v ∉ seen := by
  induction hdrs generalizing seen with
  | nil => simp [checkLoop]
  | cons v hdrs ih =>
    by_cases hv : v ∈ seen
    · simp [checkLoop, hv]
    · simp only [checkLoop, List.elem_eq_mem, decide_eq_true_eq, hv, if_false, ih, List.nodup_cons,
        List.mem_cons, not_or]
      constructor
      · rintro ⟨hn, hall⟩
        refine ⟨⟨fun hmem => (hall v hmem).1 rfl, hn⟩, ?_⟩
        rintro w (rfl | hw)
        · exact hv
        · exact (hall w hw).2
      · rintro ⟨⟨hnm, hn⟩, hall⟩
        refine ⟨hn, fun w hw => ⟨?_, hall w (Or.inr hw)⟩⟩
        rintro rfl
        exact hnm hw

theorem checkLoop_eq_some (seen hdrs : List GoString) (e : GoError)
    (h : checkLoop seen hdrs = some e) :
    ∃ k v, hdrs.get? k = some v ∧ e = .text (goStr "Repeated header name: " ++ v) ∧
      (v ∈ seen ∨ v ∈ hdrs.take k) ∧ (hdrs.take k).Nodup ∧ ∀ w ∈ hdrs.take k, w ∉ seen := by
  induction hdrs generalizing seen with
  | nil => simp [checkLoop] at h
  | cons v hdrs ih =>
    by_cases hv : v ∈ seen
    · simp only [checkLoop, List.elem_eq_mem, decide_eq_true_eq, hv, if_true, Option.some.injEq] at h
      exact ⟨0, v, rfl, h.symm, Or.inl hv, by simp, by simp⟩
    · simp only [checkLoop, List.elem_eq_mem, decide_eq_true_eq, hv, if_false] at h
      obtain ⟨k, w, hk, he, hmem, hnd, hall⟩ := ih (v :: seen) h
      refine ⟨k + 1, w, by simpa using hk, he, ?_, ?_, ?_⟩
      · rcases hmem with hm | hm
        · rcases List.mem_cons.1 hm with rfl | hm
          · exact Or.inr (by simp)
          · exact Or.inl hm
        · exact Or.inr (by simp [hm])
      · rw [List.take_succ_cons, List.nodup_cons]
        exact ⟨fun hm => (hall v hm) (by simp), hnd⟩
      · intro x hx
        rw [List.take_succ_cons] at hx
        rcases List.mem_cons.1 hx with rfl | hx
        · exact hv
        · exact fun hs => hall x hx (List.mem_cons_of_mem _ hs)

theorem CheckForDoubleHeaderNames_nodup (hdrs : List GoString) :
    CheckForDoubleHeaderNames hdrs = none ↔ hdrs.Nodup := by
  simp [CheckForDoubleHeaderNames, checkLoop_eq_none]

/-- C7: `CheckForDoubleHeaderNames` returns an error exactly when two cells at different
positions are equal. The error then names the cell at the first position `k` that repeats
an earlier cell (the cells before `k` are pairwise distinct). With pairwise distinct cells
it returns no error. The check takes no schema, and `DecodeCSV` returns its error whatever
the target is. -/
theorem CheckForDoubleHeaderNames_spec (hdrs : List GoString) :
    (CheckForDoubleHeaderNames hdrs ≠ none ↔
      ∃ i j, i < j ∧ j < hdrs.length ∧ hdrs.get? i = hdrs.get? j) ∧
    (∀ e, CheckForDoubleHeaderNames hdrs = some e →
      ∃ k v, hdrs.get? k = some v ∧ e = .text (goStr "Repeated header name: " ++ v) ∧
        (∃ j, j < k ∧ hdrs.get? j = some v) ∧ (hdrs.take k).Nodup) ∧
    (hdrs.Nodup → CheckForDoubleHeaderNames hdrs = none) ∧
    (∀ (L : Lib) (d : CSVDecoder) (v : Target) (body : List Row) (e : GoError),
      GetCSVRows d.file = .ok (hdrs :: body) → CheckForDoubleHeaderNames hdrs = some e →
      DecodeCSV L d v = .error e) := by
  have hnone := CheckForDoubleHeaderNames_nodup hdrs
  refine ⟨?_, ?_, hnone.2, ?_⟩
  · rw [Ne, hnone, List.nodup_iff_get?_ne_get?]
    push_neg
    rfl
  · intro e he
    obtain ⟨k, v, hk, hev, hmem, hnd, -⟩ := checkLoop_eq_some [] hdrs e he
    refine ⟨k, v, hk, hev, ?_, hnd⟩
    rcases hmem with hm | hm
    · simp at hm
    · obtain ⟨j, hj⟩ := List.get?_of_mem hm
      have hjk : j < k := by
        have hlt := (List.get?_eq_some.1 hj).1
        simp at hlt
        exact hlt.1
      exact ⟨j, hjk, by rw [← hj]; simp [List.getElem?_take_of_lt hjk]⟩
  · intro L d v body e hrows he
    simp [DecodeCSV, hrows, Outcome.bind, he]

/-- C7 on a header row with a repeated cell and on one without. -/
theorem CheckForDoubleHeaderNames_spec_witness :
    CheckForDoubleHeaderNames [goStr "Zip", goStr "Name", goStr "Zip"] ≠ none ∧
    CheckForDoubleHeaderNames [goStr "Zip", goStr "Name"] = none :=
  ⟨(CheckForDoubleHeaderNames_spec [goStr "Zip", goStr "Name", goStr "Zip"]).1.2
      ⟨0, 2, by decide, by decide, by decide⟩,
   (CheckForDoubleHeaderNames_spec [goStr "Zip", goStr "Name"]).2.2.1 (by decide)⟩

/-! ### DecodeCSV on concrete inputs -/

theorem asciiLib_literalPatterns : LiteralPatterns asciiLib := by
  intro pat text h
  simp only [asciiLib, h, if_true]

/-- C3: decoding the row `92882-1234` into a struct with the fields `Zip` (assigned raw)
and `Zip4` (no tags, so empty after the per-field pass) succeeds and leaves "1234" in
`Zip4`: the guard of the overwrite reads a field named `Zp4`, which the struct has not,
and the `String` of the zero Value is not empty. -/
theorem DecodeCSV_zip4_clobbered :
    DecodeCSV asciiLib (NewDecoder (.records [[goStr "Zip"], [goStr "92882-1234"]]))
        (.sliceOfStruct true true zipSchema []) =
      .ok (⟨[(goStr "Zip", 0)], .records []⟩,
        [[(goStr "Zip", .str (goStr "92882")), (goStr "Zip4", .str (goStr "1234"))]]) := by
  decide

/-- C4, as stated, fails: the decode of the end-to-end example does not produce a record
whose postal code is "92882". -/
theorem DecodeCSV_endToEnd_zip_not_split :
    ¬ ∃ (d : CSVDecoder) (r : Record),
      DecodeCSV asciiLib (NewDecoder endToEndInput) (.sliceOfStruct true true endToEndSchema [])
        = .ok (d, [r]) ∧
      fieldByName r (goStr "Phone") = some (.str (goStr "(949) 323-7895")) ∧
      fieldByName r (goStr "Zip") = some (.str (goStr "92882")) ∧
      fieldByName r (goStr "Zip4") = some (.str []) := by
  rintro ⟨d, r, h, -, hz, -⟩
  have e : DecodeCSV asciiLib (NewDecoder endToEndInput)
      (.sliceOfStruct true true endToEndSchema []) =
      .ok (⟨[(goStr "Zip", 2), (goStr "Phone", 1), (goStr "Fullname", 0)], .records []⟩,
        [[(goStr "Fullname", .str []), (goStr "Phone", .str (goStr "(949) 323-7895")),
          (goStr "Zip", .str []), (goStr "Zip4", .str [])]]) := by decide
  rw [e] at h
  injection h with h
  injection h with _ h
  injection h with h _
  subst h
  revert hz
  decide

/-- C4, amended: with any library that treats patterns of letters and digits as Go does,
the decode of the end-to-end example succeeds with exactly one record, whose phone is
"(949) 323-7895" and whose postal code, plus-4 and full name are empty: `Zip` and
`Fullname` declare no `fmt` tag and are never assigned. The three columns are bound. -/
theorem DecodeCSV_endToEnd (L : Lib) (hL : LiteralPatterns L) :
    DecodeCSV L (NewDecoder endToEndInput) (.sliceOfStruct true true endToEndSchema []) =
      .ok (⟨[(goStr "Zip", 2), (goStr "Phone", 1), (goStr "Fullname", 0)], .records []⟩,
        [[(goStr "Fullname", .str []), (goStr "Phone", .str (goStr "(949) 323-7895")),
          (goStr "Zip", .str []), (goStr "Zip4", .str [])]]) := by
  have m : ∀ pat text : GoString, pat.all isAlnum = true →
      L.matchString pat text = asciiLib.matchString pat text := by
    intro pat text h
    rw [hL pat text h]
    simp only [asciiLib, h, if_true]
  have hb : bindHeader L endToEndSchema 0 [goStr "Name", goStr "Phone", goStr "Zip"] [] =
      .ok [(goStr "Zip", 2), (goStr "Phone", 1), (goStr "Fullname", 0)] := by
    simp +decide only [bindHeader, endToEndSchema, bindFields, if_false, if_true, ite_false,
      m (goStr "Name") (goStr "Name") (by decide), m (goStr "Phone") (goStr "Name") (by decide),
      m (goStr "Zip") (goStr "Name") (by decide), m (goStr "Name") (goStr "Phone") (by decide),
      m (goStr "Phone") (goStr "Phone") (by decide), m (goStr "Zip") (goStr "Phone") (by decide),
      m (goStr "Name") (goStr "Zip") (by decide), m (goStr "Phone") (goStr "Zip") (by decide),
      m (goStr "Zip") (goStr "Zip") (by decide)]
  have hr : GetCSVRows endToEndInput = .ok [[goStr "Name", goStr "Phone", goStr "Zip"],
      [goStr "john doe", goStr "9493237895", goStr "92882-1234"]] := by decide
  have hc : CheckForDoubleHeaderNames [goStr "Name", goStr "Phone", goStr "Zip"] = none := by
    decide
  have hrow : rowLoop L [(goStr "Zip", 2), (goStr "Phone", 1), (goStr "Fullname", 0)]
      endToEndSchema true true [[goStr "john doe", goStr "9493237895", goStr "92882-1234"]] [] =
      .ok [[(goStr "Fullname", .str []), (goStr "Phone", .str (goStr "(949) 323-7895")),
          (goStr "Zip", .str []), (goStr "Zip4", .str [])]] := by
    rfl
  simp only [DecodeCSV, hr, Outcome.bind, hc, NewDecoder, hb, hrow]

/-- C4, amended, run with the ASCII library fragment. -/
theorem DecodeCSV_endToEnd_witness :
    LiteralPatterns asciiLib ∧
    DecodeCSV asciiLib (NewDecoder endToEndInput) (.sliceOfStruct true true endToEndSchema []) =
      .ok (⟨[(goStr "Zip", 2), (goStr "Phone", 1), (goStr "Fullname", 0)], .records []⟩,
        [[(goStr "Fullname", .str []), (goStr "Phone", .str (goStr "(949) 323-7895")),
          (goStr "Zip", .str []), (goStr "Zip4", .str [])]]) :=
  ⟨asciiLib_literalPatterns, DecodeCSV_endToEnd asciiLib asciiLib_literalPatterns⟩

/-! ### The binding pass -/

theorem bindFields_get (L : Lib) (i : Nat) (cell : GoString) (fs : List Field)
    (m m' : HeaderMap) (h : bindFields L i cell fs m = .ok m') (name : GoString) :
    mapGet m' name = if hits L fs name cell then some i else mapGet m name := by
  induction fs generalizing m with
  | nil =>
    simp only [bindFields, Outcome.ok.injEq] at h
    simp [hits, h]
  | cons f fs ih =>
    unfold bindFields at h
    cases hc : f.csv with
    | none =>
      simp only [hc] at h
      rw [ih m h]
      simp [hits, hc]
    | some rgx =>
      simp only [hc] at h
      cases hm : L.matchString (if rgx = goStr "-" then f.Name else rgx) cell with
      | none => simp [hm] at h
      | some b =>
        cases b with
        | true =>
          simp only [hm] at h
          rw [ih _ h]
          by_cases hn : f.Name = name
          · subst hn
            simp [hits, hc, bindingPattern, hm, mapGet, mapSet]
          · simp [hits, hc, hn, mapGet, mapSet]
        | false =>
          simp only [hm] at h
          rw [ih _ h]
          simp [hits, hc, bindingPattern, hm]

theorem bindHeader_get (L : Lib) (schema : Schema) (i : Nat) (cells : Row)
    (m m' : HeaderMap) (h : bindHeader L schema i cells m = .ok m') (name : GoString) :
    mapGet m' name = lastIndexFrom (hits L schema name) i cells (mapGet m name) := by
  induction cells generalizing i m with
  | nil =>
    simp only [bindHeader, Outcome.ok.injEq] at h
    simp [lastIndexFrom, h]
  | cons c cs ih =>
    unfold bindHeader at h
    cases hb : bindFields L i c schema m with
    | ok m1 =>
      simp only [hb, Outcome.bind] at h
      rw [ih _ _ h, bindFields_get L i c schema m m1 hb name]
      rfl
    | error e => simp [hb, Outcome.bind] at h
    | panic p => simp [hb, Outcome.bind] at h
    | fatal e => simp [hb, Outcome.bind] at h

theorem lastIndexFrom_eq_none (p : GoString → Bool) (i : Nat) (cs : Row) (acc : Option Nat) :
    lastIndexFrom p i cs acc = none ↔ acc = none ∧ ∀ c ∈ cs, p c = false := by
  induction cs generalizing i acc with
  | nil => simp [lastIndexFrom]
  | cons c cs ih =>
    simp only [lastIndexFrom, ih, List.mem_cons, forall_eq_or_imp]
    by_cases hp : p c = true
    · simp [hp]
    · simp [hp]

theorem lastIndexFrom_eq_some (p : GoString → Bool) (i : Nat) (cs : Row) (acc : Option Nat)
    (k : Nat) (h : lastIndexFrom p i cs acc = some k) :
    (acc = some k ∧ ∀ c ∈ cs, p c = false) ∨
    ∃ j c, k = i + j ∧ cs.get? j = some c ∧ p c = true ∧
      ∀ j' c', j < j' → cs.get? j' = some c' → p c' = false := by
  induction cs generalizing i acc with
  | nil =>
    simp only [lastIndexFrom] at h
    exact Or.inl ⟨h, by simp⟩
  | cons c cs ih =>
    simp only [lastIndexFrom] at h
    rcases ih _ _ h with ⟨hacc, hall⟩ | ⟨j, c1, hk, hj, hp, hlast⟩
    · by_cases hp : p c = true
      · simp only [hp, if_true, Option.some.injEq] at hacc
        refine Or.inr ⟨0, c, by omega, rfl, hp, ?_⟩
        intro j' c' hj' hget
        obtain ⟨n, rfl⟩ : ∃ n, j' = n + 1 := ⟨j' - 1, by omega⟩
        exact hall c' (List.get?_mem (by simpa using hget))
      · simp only [hp] at hacc
        refine Or.inl ⟨by simpa using hacc, ?_⟩
        intro c' hc'
        rcases List.mem_cons.1 hc' with rfl | hc'
        · simpa using hp
        · exact hall c' hc'
    · refine Or.inr ⟨j + 1, c1, by omega, by simpa using hj, hp, ?_⟩
      intro j' c' hj' hget
      obtain ⟨n, rfl⟩ : ∃ n, j' = n + 1 := ⟨j' - 1, by omega⟩
      exact hlast n c' (by omega) (by simpa using hget)

theorem hits_of_mem (L : Lib) (schema : Schema) (hnd : (schema.map Field.Name).Nodup)
    (f : Field) (hf : f ∈ schema) (rgx : GoString) (hc : f.csv = some rgx) (cell : GoString) :
    hits L schema f.Name cell = (L.matchString (bindingPattern f rgx) cell == some true) := by
  induction schema with
  | nil => simp at hf
  | cons g gs ih =>
    simp only [List.map_cons, List.nodup_cons] at hnd
    rcases List.mem_cons.1 hf with rfl | hf
    · have hrest : hits L gs f.Name cell = false := by
        simp only [hits, List.any_eq_false, Bool.and_eq_true, decide_eq_true_eq, not_and]
        intro g hg hname
        exact absurd (List.mem_map.2 ⟨g, hg, hname⟩) hnd.1
      have hsplit : hits L (f :: gs) f.Name cell =
          ((L.matchString (bindingPattern f rgx) cell == some true) || hits L gs f.Name cell) := by
        simp [hits, hc]
      rw [hsplit, hrest, Bool.or_false]
    · have hne : g.Name ≠ f.Name := by
        intro he
        exact hnd.1 (he ▸ List.mem_map.2 ⟨f, hf, rfl⟩)
      have hsplit : hits L (g :: gs) f.Name cell = hits L gs f.Name cell := by
        simp [hits, hne]
      rw [hsplit, ih hnd.2 hf]

theorem bindFields_total (L : Lib) (i : Nat) (cell : GoString) (fs : List Field) (m : HeaderMap)
    (h : ∀ f ∈ fs, ∀ rgx, f.csv = some rgx → L.matchString (bindingPattern f rgx) cell ≠ none) :
    ∃ m', bindFields L i cell fs m = .ok m' := by
  induction fs generalizing m with
  | nil => exact ⟨m, rfl⟩
  | cons f fs ih =>
    have ih' := fun m => ih m (fun g hg => h g (List.mem_cons_of_mem _ hg))
    unfold bindFields
    cases hc : f.csv with
    | none => exact ih' m
    | some rgx =>
      have hm := h f (List.mem_cons_self _ _) rgx hc
      simp only [bindingPattern] at hm
      cases hv : L.matchString (if rgx = goStr "-" then f.Name else rgx) cell with
      | none => exact absurd hv hm
      | some b =>
        cases b with
        | true =>
          simp only [hv]
          exact ih' _
        | false =>
          simp only [hv]
          exact ih' _

theorem bindHeader_total (L : Lib) (schema : Schema) (i : Nat) (cells : Row) (m : HeaderMap)
    (h : ∀ f ∈ schema, ∀ rgx, f.csv = some rgx → ∀ cell ∈ cells,
      L.matchString (bindingPattern f rgx) cell ≠ none) :
    ∃ m', bindHeader L schema i cells m = .ok m' := by
  induction cells generalizing i m with
  | nil => exact ⟨m, rfl⟩
  | cons c cs ih =>
    obtain ⟨m1, h1⟩ := bindFields_total L i c schema m
      (fun f hf rgx hc => h f hf rgx hc c (List.mem_cons_self _ _))
    obtain ⟨m2, h2⟩ := ih (i + 1) m1
      (fun f hf rgx hc cell hcell => h f hf rgx hc cell (List.mem_cons_of_mem _ hcell))
    exact ⟨m2, by simp [bindHeader, h1, Outcome.bind, h2]⟩

/-- C5: for a schema with pairwise distinct field names and an empty column map before the
binding pass: when the pass completes, every field with a `csv` tag is mapped to `k` exactly
when `k` is the largest column index whose header cell matches the field's pattern (the
field's name for the tag "-"), and is absent from the map exactly when no header cell
matches. The pass completes when every pattern compiles. -/
theorem bindHeader_lastMatchWins (L : Lib) (schema : Schema) (headerRow : Row)
    (hnd : (schema.map Field.Name).Nodup) :
    (∀ header, bindHeader L schema 0 headerRow [] = .ok header →
      ∀ f ∈ schema, ∀ rgx, f.csv = some rgx →
        (∀ k, mapGet header f.Name = some k ↔
          IsLastMatch L (bindingPattern f rgx) headerRow k) ∧
        (mapGet header f.Name = none ↔
          ∀ cell ∈ headerRow, L.matchString (bindingPattern f rgx) cell ≠ some true)) ∧
    ((∀ f ∈ schema, ∀ rgx, f.csv = some rgx → ∀ cell ∈ headerRow,
        L.matchString (bindingPattern f rgx) cell ≠ none) →
      ∃ header, bindHeader L schema 0 headerRow [] = .ok header) := by
  refine ⟨?_, fun h => bindHeader_total L schema 0 headerRow [] h⟩
  intro header hb f hf rgx hc
  have hget := bindHeader_get L schema 0 headerRow [] header hb f.Name
  have hp : hits L schema f.Name =
      fun cell => L.matchString (bindingPattern f rgx) cell == some true :=
    funext fun cell => hits_of_mem L schema hnd f hf rgx hc cell
  rw [hp] at hget
  simp only [mapGet] at hget
  have hsome : ∀ k, mapGet header f.Name = some k →
      IsLastMatch L (bindingPattern f rgx) headerRow k := by
    intro k hk
    rw [hget] at hk
    rcases lastIndexFrom_eq_some _ _ _ _ _ hk with ⟨hacc, -⟩ | ⟨j, c, hkj, hj, hpc, hlast⟩
    · simp at hacc
    · have hkj' : k = j := by omega
      subst hkj'
      refine ⟨⟨c, hj, by simpa using hpc⟩, ?_⟩
      intro j' c' hlt hget' hmatch
      have := hlast j' c' hlt hget'
      simp [hmatch] at this
  have hnone : mapGet header f.Name = none ↔
      ∀ cell ∈ headerRow, L.matchString (bindingPattern f rgx) cell ≠ some true := by
    rw [hget, lastIndexFrom_eq_none]
    simp
  refine ⟨fun k => ⟨hsome k, ?_⟩, hnone⟩
  rintro ⟨⟨c, hkc, hmc⟩, hlast⟩
  cases hv : mapGet header f.Name with
  | none =>
    exact absurd hmc (hnone.1 hv c (List.get?_mem hkc))
  | some k' =>
    obtain ⟨⟨c', hkc', hmc'⟩, hlast'⟩ := hsome k' hv
    rcases Nat.lt_trichotomy k k' with hlt | heq | hgt
    · exact absurd hmc' (hlast k' c' hlt hkc')
    · rw [heq]
    · exact absurd hmc (hlast' k c hgt hkc)

/-- C5 on a header row in which the pattern "Zip" matches the cells of columns 0 and 2: the
field is bound to column 2. -/
theorem bindHeader_lastMatchWins_witness :
    (endToEndSchema.map Field.Name).Nodup ∧
    IsLastMatch asciiLib (goStr "Zip") [goStr "Zip", goStr "Phone", goStr "ZipCode"] 2 :=
  ⟨by decide,
   (((bindHeader_lastMatchWins asciiLib endToEndSchema
        [goStr "Zip", goStr "Phone", goStr "ZipCode"] (by decide)).1
      [(goStr "Zip", 2), (goStr "Phone", 1), (goStr "Zip", 0)] (by decide)
      ⟨goStr "Zip", .string, some (goStr "Zip"), none⟩ (by decide) (goStr "Zip") rfl).1 2).1
    (by decide)⟩

/-! ### Records -/

theorem shape_reflectNew (schema : Schema) : shape (reflectNew schema) = schemaShape schema := by
  induction schema with
  | nil => rfl
  | cons f fs ih =>
    simp only [shape, reflectNew, schemaShape, List.map_cons, List.map_map] at ih ⊢
    rw [ih]
    cases hk : f.Kind <;> simp [zeroValue, kindOf]

theorem fieldByName_setField_self (r : Record) (name : GoString) (v w : Value)
    (h : fieldByName r name = some w) : fieldByName (setField name v r) name = some v := by
  induction r with
  | nil => simp [fieldByName] at h
  | cons p r ih =>
    obtain ⟨n, x⟩ := p
    by_cases hn : n = name
    · simp [setField, fieldByName, hn]
    · simp only [fieldByName, hn, if_false] at h
      simp [setField, fieldByName, hn, ih h]

theorem fieldByName_setField_ne (r : Record) (name other : GoString) (v : Value)
    (h : other ≠ name) : fieldByName (setField name v r) other = fieldByName r other := by
  induction r with
  | nil => rfl
  | cons p r ih =>
    obtain ⟨n, x⟩ := p
    by_cases hn : n = name
    · subst hn
      simp [setField, fieldByName, Ne.symm h]
    · by_cases ho : n = other
      · subst ho
        simp [setField, fieldByName, hn]
      · simp [setField, fieldByName, hn, ho, ih]

theorem shape_setField (r : Record) (name : GoString) (v w : Value)
    (h : fieldByName r name = some w) (hk : kindOf v = kindOf w) :
    shape (setField name v r) = shape r := by
  induction r with
  | nil => rfl
  | cons p r ih =>
    obtain ⟨n, x⟩ := p
    by_cases hn : n = name
    · simp only [fieldByName, hn, if_true, Option.some.injEq] at h
      subst h
      simp [setField, shape, hn, hk]
    · simp only [fieldByName, hn, if_false] at h
      have := ih h
      simp only [shape] at this
      simp [setField, shape, hn, this]

theorem fieldByName_of_shape (schema : Schema) (r : Record)
    (hs : shape r = schemaShape schema) (hnd : (schema.map Field.Name).Nodup)
    (f : Field) (hf : f ∈ schema) :
    ∃ v, fieldByName r f.Name = some v ∧ kindOf v = f.Kind := by
  induction schema generalizing r with
  | nil => simp at hf
  | cons g gs ih =>
    rcases r with _ | ⟨⟨n, x⟩, r⟩
    · simp [shape, schemaShape] at hs
    · simp only [shape, schemaShape, List.map_cons, List.cons.injEq, Prod.mk.injEq] at hs
      obtain ⟨⟨hn, hx⟩, hrest⟩ := hs
      simp only [List.map_cons, List.nodup_cons] at hnd
      rcases List.mem_cons.1 hf with rfl | hf
      · exact ⟨x, by simp [fieldByName, hn], hx⟩
      · have hne : n ≠ f.Name := by
          intro e
          exact hnd.1 (List.mem_map.2 ⟨f, hf, by rw [← e, hn]⟩)
        obtain ⟨v, hv, hkv⟩ := ih r hrest hnd.2 hf
        exact ⟨v, by simp [fieldByName, hne, hv], hkv⟩

theorem fieldByName_reflectNew (schema : Schema) (hnd : (schema.map Field.Name).Nodup)
    (f : Field) (hf : f ∈ schema) :
    fieldByName (reflectNew schema) f.Name = some (zeroValue f.Kind) := by
  induction schema with
  | nil => simp at hf
  | cons g gs ih =>
    simp only [List.map_cons, List.nodup_cons] at hnd
    rcases List.mem_cons.1 hf with rfl | hf
    · simp [reflectNew, fieldByName]
    · have hne : g.Name ≠ f.Name := by
        intro e
        exact hnd.1 (List.mem_map.2 ⟨f, hf, e.symm⟩)
      have := ih hnd.2 hf
      simp only [reflectNew] at this
      simp [reflectNew, fieldByName, hne, this]

theorem SetString_eq_ok (r r' : Record) (name s : GoString) (h : SetString r name s = .ok r') :
    r' = setField name (.str s) r ∧ ∃ old, fieldByName r name = some (.str old) := by
  unfold SetString at h
  cases hv : fieldByName r name with
  | none => simp [hv] at h
  | some v =>
    cases v with
    | str old =>
      simp only [hv, Outcome.ok.injEq] at h
      exact ⟨h.symm, old, rfl⟩
    | time t => simp [hv] at h

theorem SetTime_eq_ok (r r' : Record) (name : GoString) (t : Time)
    (h : SetTime r name t = .ok r') :
    r' = setField name (.time t) r ∧ ∃ old, fieldByName r name = some (.time old) := by
  unfold SetTime at h
  cases hv : fieldByName r name with
  | none => simp [hv] at h
  | some v =>
    cases v with
    | str old => simp [hv] at h
    | time old =>
      simp only [hv, Outcome.ok.injEq] at h
      exact ⟨h.symm, old, rfl⟩

theorem bind_eq_ok {α β : Type} (x : Outcome α) (f : α → Outcome β) (b : β)
    (h : x.bind f = .ok b) : ∃ a, x = .ok a ∧ f a = .ok b := by
  cases x with
  | ok a => exact ⟨a, rfl, h⟩
  | error e => simp [Outcome.bind] at h
  | panic p => simp [Outcome.bind] at h
  | fatal e => simp [Outcome.bind] at h

theorem goIndex_eq_ok {α : Type} (xs : List α) (i : Nat) (x : α) (h : goIndex xs i = .ok x) :
    xs.get? i = some x := by
  unfold goIndex at h
  split at h
  · rename_i y hy
    simp only [Outcome.ok.injEq] at h
    rw [hy, h]
  · simp at h

/-! ### The per-field pass -/

theorem assignField_string (L : Lib) (header : HeaderMap) (csvRow : Row) (f : Field)
    (r r' : Record) (hk : f.Kind = .string) (h : assignField L header csvRow f r = .ok r') :
    (∀ c, mapGet header f.Name = some c →
      (f.fmt = some (goStr "-") →
        ∃ val, csvRow.get? c = some val ∧ r' = setField f.Name (.str val) r ∧
          ∃ old, fieldByName r f.Name = some (.str old)) ∧
      (∀ format, f.fmt = some format → format ≠ goStr "-" →
        ∃ val v, csvRow.get? c = some val ∧ FormatStringVals L format val = .ok v ∧
          r' = setField f.Name (.str v) r ∧ ∃ old, fieldByName r f.Name = some (.str old)) ∧
      (f.fmt = none → r' = r)) ∧
    (mapGet header f.Name = none → r' = r) := by
  unfold assignField at h
  simp only [hk] at h
  cases hm : mapGet header f.Name with
  | none =>
    simp only [hm, Outcome.ok.injEq] at h
    exact ⟨fun c hc => by simp at hc, fun _ => h.symm⟩
  | some c =>
    simp only [hm] at h
    refine ⟨?_, fun hc => by simp at hc⟩
    intro c' hc'
    simp only [Option.some.injEq] at hc'
    subst hc'
    cases hf : f.fmt with
    | none =>
      simp only [hf, Outcome.ok.injEq] at h
      exact ⟨fun hx => by simp at hx, fun format hx => by simp at hx, fun _ => h.symm⟩
    | some format =>
      simp only [hf] at h
      by_cases hd : format = goStr "-"
      · simp only [hd, ne_eq, not_true_eq_false, if_false] at h
        obtain ⟨val, hval, hset⟩ := bind_eq_ok _ _ _ h
        obtain ⟨hr, hold⟩ := SetString_eq_ok _ _ _ _ hset
        refine ⟨fun _ => ⟨val, goIndex_eq_ok _ _ _ hval, hr, hold⟩, ?_, fun hx => by simp at hx⟩
        intro format' hx hne
        simp only [Option.some.injEq] at hx
        exact absurd (hx ▸ hd) hne
      · simp only [ne_eq, hd, not_false_eq_true, if_true] at h
        obtain ⟨val, hval, hrest⟩ := bind_eq_ok _ _ _ h
        refine ⟨fun hx => ?_, ?_, fun hx => by simp at hx⟩
        · simp only [Option.some.injEq] at hx
          exact absurd hx hd
        · intro format' hx _
          simp only [Option.some.injEq] at hx
          subst hx
          cases hv : FormatStringVals L format val with
          | ok v =>
            simp only [hv] at hrest
            obtain ⟨hr, hold⟩ := SetString_eq_ok _ _ _ _ hrest
            exact ⟨val, v, goIndex_eq_ok _ _ _ hval, hv, hr, hold⟩
          | error e => simp [hv] at hrest
          | panic p => simp [hv] at hrest
          | fatal e => simp [hv] at hrest

theorem assignField_eq_ok (L : Lib) (header : HeaderMap) (csvRow : Row) (f : Field)
    (r r' : Record) (h : assignField L header csvRow f r = .ok r') :
    r' = r ∨ ∃ v w, r' = setField f.Name v r ∧ fieldByName r f.Name = some w ∧
      kindOf v = kindOf w := by
  cases hk : f.Kind with
  | string =>
    obtain ⟨hsome, hnone⟩ := assignField_string L header csvRow f r r' hk h
    cases hm : mapGet header f.Name with
    | none => exact Or.inl (hnone hm)
    | some c =>
      obtain ⟨hraw, hfmt, hno⟩ := hsome c hm
      cases hf : f.fmt with
      | none => exact Or.inl (hno hf)
      | some format =>
        by_cases hd : format = goStr "-"
        · obtain ⟨val, -, hr, old, hold⟩ := hraw (hd ▸ hf)
          exact Or.inr ⟨_, _, hr, hold, rfl⟩
        · obtain ⟨val, v, -, -, hr, old, hold⟩ := hfmt format hf hd
          exact Or.inr ⟨_, _, hr, hold, rfl⟩
  | time =>
    unfold assignField at h
    simp only [hk] at h
    cases hm : mapGet header f.Name with
    | none =>
      simp only [hm, Outcome.ok.injEq] at h
      exact Or.inl h.symm
    | some c =>
      simp only [hm] at h
      obtain ⟨cell, -, hset⟩ := bind_eq_ok _ _ _ h
      obtain ⟨hr, old, hold⟩ := SetTime_eq_ok _ _ _ _ hset
      exact Or.inr ⟨_, _, hr, hold, rfl⟩

theorem assignField_frame (L : Lib) (header : HeaderMap) (csvRow : Row) (f : Field)
    (r r' : Record) (h : assignField L header csvRow f r = .ok r') (other : GoString)
    (hne : other ≠ f.Name) : fieldByName r' other = fieldByName r other := by
  rcases assignField_eq_ok L header csvRow f r r' h with rfl | ⟨v, w, rfl, -, -⟩
  · rfl
  · exact fieldByName_setField_ne r f.Name other v hne

theorem assignField_shape (L : Lib) (header : HeaderMap) (csvRow : Row) (f : Field)
    (r r' : Record) (h : assignField L header csvRow f r = .ok r') : shape r' = shape r := by
  rcases assignField_eq_ok L header csvRow f r r' h with rfl | ⟨v, w, rfl, hw, hk⟩
  · rfl
  · exact shape_setField r f.Name v w hw hk

theorem perFieldPass_frame (L : Lib) (header : HeaderMap) (csvRow : Row) (fs : List Field)
    (r r' : Record) (h : perFieldPass L header csvRow fs r = .ok r') (other : GoString)
    (hne : other ∉ fs.map Field.Name) : fieldByName r' other = fieldByName r other := by
  induction fs generalizing r with
  | nil =>
    simp only [perFieldPass, Outcome.ok.injEq] at h
    rw [h]
  | cons f fs ih =>
    simp only [List.map_cons, List.mem_cons, not_or] at hne
    obtain ⟨r1, h1, h2⟩ := bind_eq_ok _ _ _ h
    rw [ih r1 h2 hne.2, assignField_frame L header csvRow f r r1 h1 other hne.1]

theorem perFieldPass_step (L : Lib) (header : HeaderMap) (csvRow : Row) (fs : List Field)
    (r r' : Record) (h : perFieldPass L header csvRow fs r = .ok r')
    (hnd : (fs.map Field.Name).Nodup) (f : Field) (hf : f ∈ fs) :
    ∃ r1 r2, assignField L header csvRow f r1 = .ok r2 ∧
      fieldByName r1 f.Name = fieldByName r f.Name ∧
      fieldByName r' f.Name = fieldByName r2 f.Name := by
  induction fs generalizing r with
  | nil => simp at hf
  | cons g gs ih =>
    simp only [List.map_cons, List.nodup_cons] at hnd
    obtain ⟨r1, h1, h2⟩ := bind_eq_ok _ _ _ h
    rcases List.mem_cons.1 hf with rfl | hf
    · exact ⟨r, r1, h1, rfl, perFieldPass_frame L header csvRow gs r1 r' h2 f.Name hnd.1⟩
    · obtain ⟨ra, rb, hab, hra, hrb⟩ := ih r1 h2 hnd.2 hf
      have hne : f.Name ≠ g.Name := by
        intro e
        exact hnd.1 (List.mem_map.2 ⟨f, hf, e⟩)
      exact ⟨ra, rb, hab, by rw [hra, assignField_frame L header csvRow g r r1 h1 _ hne], hrb⟩

theorem fieldLoop_eq (L : Lib) (header : HeaderMap) (csvRow : Row) (n j : Nat)
    (fs : List Field) (r : Record) (hne : fs ≠ []) (hn : j + fs.length = n) :
    fieldLoop L header csvRow n j fs r =
      (perFieldPass L header csvRow fs r).bind (postProcess L) := by
  induction fs generalizing j r with
  | nil => exact absurd rfl hne
  | cons f fs ih =>
    cases fs with
    | nil =>
      have hj : j = n - 1 := by simp at hn; omega
      simp only [fieldLoop, perFieldPass, hj, if_true]
      cases assignField L header csvRow f r with
      | ok r1 =>
        simp only [Outcome.bind]
        cases postProcess L r1 <;> rfl
      | error e => rfl
      | panic p => rfl
      | fatal e => rfl
    | cons g gs =>
      have hj : j ≠ n - 1 := by simp at hn; omega
      have ih' := fun r1 => ih (j + 1) r1 (by simp) (by simp at hn ⊢; omega)
      rw [fieldLoop, perFieldPass]
      cases assignField L header csvRow f r with
      | ok r1 =>
        simp only [Outcome.bind, hj, if_false]
        exact ih' r1
      | error e => rfl
      | panic p => rfl
      | fatal e => rfl

theorem FormatPhone_total (p : GoString) : ∃ v, FormatPhone p = .ok v := by
  unfold FormatPhone
  by_cases h10 : (StripSep p).length = 10
  · simp [h10, goSlice, Outcome.bind]
  · by_cases h7 : (StripSep p).length = 7
    · simp [h7, goSlice, Outcome.bind]
    · simp [h10, h7]

theorem FormatStringVals_recognised (L : Lib) (format val : GoString)
    (h : format ∈ recognised) : ∃ v, FormatStringVals L format val = .ok v := by
  simp only [recognised, List.mem_cons, List.mem_singleton, List.not_mem_nil, or_false] at h
  unfold FormatStringVals
  rcases h with rfl | rfl | rfl | rfl | rfl
  · exact ⟨TCase L val, by rw [if_pos rfl]⟩
  · exact ⟨UCase L val, by rw [if_neg (by decide), if_pos rfl]⟩
  · exact ⟨LCase L val, by rw [if_neg (by decide), if_neg (by decide), if_pos rfl]⟩
  · obtain ⟨v, hv⟩ := FormatPhone_total val
    exact ⟨v, by rw [if_neg (by decide), if_neg (by decide), if_neg (by decide), if_pos rfl, hv]⟩
  · exact ⟨StripSep val, by
      rw [if_neg (by decide), if_neg (by decide), if_neg (by decide), if_neg (by decide),
        if_pos rfl]⟩

theorem assignField_total (L : Lib) (header : HeaderMap) (csvRow : Row) (f : Field)
    (r : Record) (hfield : ∃ w, fieldByName r f.Name = some w ∧ kindOf w = f.Kind)
    (hcol : ∀ c, mapGet header f.Name = some c → c < csvRow.length)
    (hfmt : f.Kind = .string → ∀ format, f.fmt = some format →
      format = goStr "-" ∨ format ∈ recognised) :
    ∃ r', assignField L header csvRow f r = .ok r' := by
  obtain ⟨w, hw, hkw⟩ := hfield
  unfold assignField
  cases hm : mapGet header f.Name with
  | none => cases f.Kind <;> exact ⟨r, rfl⟩
  | some c =>
    have hc := hcol c hm
    obtain ⟨cell, hcell⟩ : ∃ cell, csvRow.get? c = some cell :=
      ⟨csvRow.get ⟨c, hc⟩, List.get?_eq_get hc⟩
    have hidx : goIndex csvRow c = .ok cell := by
      simp only [goIndex, hcell]
    cases hk : f.Kind with
    | time =>
      rw [hk] at hkw
      cases w with
      | str s => simp [kindOf] at hkw
      | time t =>
        exact ⟨setField f.Name (.time (ParseDate L cell)) r,
          by simp [hidx, Outcome.bind, SetTime, hw]⟩
    | string =>
      rw [hk] at hkw
      cases w with
      | time t => simp [kindOf] at hkw
      | str s =>
        cases hf : f.fmt with
        | none => exact ⟨r, rfl⟩
        | some format =>
          rcases hfmt hk format hf with rfl | hrec
          · exact ⟨setField f.Name (.str cell) r, by simp [hidx, Outcome.bind, SetString, hw]⟩
          · have hne : format ≠ goStr "-" := by
              intro e
              rw [e] at hrec
              revert hrec
              decide
            obtain ⟨v, hv⟩ := FormatStringVals_recognised L format cell hrec
            exact ⟨setField f.Name (.str v) r,
              by simp [hne, hidx, Outcome.bind, hv, SetString, hw]⟩

theorem perFieldPass_total (L : Lib) (header : HeaderMap) (csvRow : Row) (schema : Schema)
    (hnd : (schema.map Field.Name).Nodup) (fs : List Field) (r : Record)
    (hsub : ∀ f ∈ fs, f ∈ schema) (hs : shape r = schemaShape schema)
    (hok : ∀ f ∈ fs, (∀ c, mapGet header f.Name = some c → c < csvRow.length) ∧
      (f.Kind = .string → ∀ format, f.fmt = some format →
        format = goStr "-" ∨ format ∈ recognised)) :
    ∃ r', perFieldPass L header csvRow fs r = .ok r' := by
  induction fs generalizing r with
  | nil => exact ⟨r, rfl⟩
  | cons f fs ih =>
    have hf := hsub f (List.mem_cons_self _ _)
    obtain ⟨r1, h1⟩ := assignField_total L header csvRow f r
      (fieldByName_of_shape schema r hs hnd f hf) (hok f (List.mem_cons_self _ _)).1
      (hok f (List.mem_cons_self _ _)).2
    have hs1 : shape r1 = schemaShape schema := by
      rw [assignField_shape L header csvRow f r r1 h1, hs]
    obtain ⟨r2, h2⟩ := ih r1 (fun g hg => hsub g (List.mem_cons_of_mem _ hg)) hs1
      (fun g hg => hok g (List.mem_cons_of_mem _ hg))
    exact ⟨r2, by simp [perFieldPass, h1, Outcome.bind, h2]⟩

/-- C6: for a schema with pairwise distinct field names, when the per-field pass of a row
completes, a string field bound to column `c` holds the raw cell `row[c]` if its `fmt` tag
is "-", holds `FormatStringVals(format, row[c])` if its tag is a recognised directive, and
holds the empty string if it has no `fmt` tag; an unbound string field holds the empty
string. The row's record is this pass followed by the cross-field block, and the pass
completes when every bound column lies within the row and every `fmt` tag of a string
field is "-" or a recognised directive. -/
theorem perFieldPass_string_rule (L : Lib) (header : HeaderMap) (csvRow : Row)
    (schema : Schema) (hnd : (schema.map Field.Name).Nodup) :
    (∀ r, perFieldPass L header csvRow schema (reflectNew schema) = .ok r →
      ∀ f ∈ schema, f.Kind = .string →
        (∀ c, mapGet header f.Name = some c →
          (f.fmt = some (goStr "-") →
            ∃ val, csvRow.get? c = some val ∧ fieldByName r f.Name = some (.str val)) ∧
          (∀ format, f.fmt = some format → format ∈ recognised →
            ∃ val v, csvRow.get? c = some val ∧ FormatStringVals L format val = .ok v ∧
              fieldByName r f.Name = some (.str v)) ∧
          (f.fmt = none → fieldByName r f.Name = some (.str []))) ∧
        (mapGet header f.Name = none → fieldByName r f.Name = some (.str []))) ∧
    (schema ≠ [] → materialize L header schema csvRow =
      (perFieldPass L header csvRow schema (reflectNew schema)).bind (postProcess L)) ∧
    ((∀ f ∈ schema, (∀ c, mapGet header f.Name = some c → c < csvRow.length) ∧
        (f.Kind = .string → ∀ format, f.fmt = some format →
          format = goStr "-" ∨ format ∈ recognised)) →
      ∃ r, perFieldPass L header csvRow schema (reflectNew schema) = .ok r) := by
  refine ⟨?_, ?_, ?_⟩
  · intro r hr f hf hk
    obtain ⟨r1, r2, hstep, h1, h2⟩ :=
      perFieldPass_step L header csvRow schema _ r hr hnd f hf
    have hzero : fieldByName r1 f.Name = some (.str []) := by
      rw [h1, fieldByName_reflectNew schema hnd f hf, hk]
      rfl
    obtain ⟨hsome, hnone⟩ := assignField_string L header csvRow f r1 r2 hk hstep
    refine ⟨fun c hc => ?_, fun hm => ?_⟩
    · obtain ⟨hraw, hfmt, hno⟩ := hsome c hc
      refine ⟨fun hd => ?_, fun format hfm hrec => ?_, fun hn => ?_⟩
      · obtain ⟨val, hval, hset, -⟩ := hraw hd
        exact ⟨val, hval, by rw [h2, hset, fieldByName_setField_self r1 _ _ _ hzero]⟩
      · have hne : format ≠ goStr "-" := by
          intro e
          rw [e] at hrec
          revert hrec
          decide
        obtain ⟨val, v, hval, hv, hset, -⟩ := hfmt format hfm hne
        exact ⟨val, v, hval, hv, by rw [h2, hset, fieldByName_setField_self r1 _ _ _ hzero]⟩
      · rw [h2, hno hn, hzero]
    · rw [h2, hnone hm, hzero]
  · intro hne
    exact fieldLoop_eq L header csvRow schema.length 0 schema (reflectNew schema) hne (by simp)
  · intro hok
    exact perFieldPass_total L header csvRow schema hnd schema (reflectNew schema)
      (fun f hf => hf) (shape_reflectNew schema) hok

/-- C6 on the row of the end-to-end example: `Phone`, bound to column 1 with the directive
`fp`, holds the formatted cell after the per-field pass. -/
theorem perFieldPass_string_rule_witness :
    (endToEndSchema.map Field.Name).Nodup ∧
    ∃ val v, [goStr "john doe", goStr "9493237895", goStr "92882-1234"].get? 1 = some val ∧
      FormatStringVals asciiLib (goStr "fp") val = .ok v ∧
      fieldByName
        [(goStr "Fullname", .str []), (goStr "Phone", .str (goStr "(949) 323-7895")),
          (goStr "Zip", .str []), (goStr "Zip4", .str [])] (goStr "Phone") = some (.str v) :=
  ⟨by decide,
   ((((perFieldPass_string_rule asciiLib
        [(goStr "Zip", 2), (goStr "Phone", 1), (goStr "Fullname", 0)]
        [goStr "john doe", goStr "9493237895", goStr "92882-1234"] endToEndSchema
        (by decide)).1
      [(goStr "Fullname", .str []), (goStr "Phone", .str (goStr "(949) 323-7895")),
        (goStr "Zip", .str []), (goStr "Zip4", .str [])] (by decide)
      ⟨goStr "Phone", .string, some (goStr "Phone"), some (goStr "fp")⟩ (by decide) rfl).1
      1 (by decide)).2.1 (goStr "fp") rfl (by decide))⟩

/-! ### DecodeCSV: empty input, header only, row order -/

/-- C8, as stated, fails: with a header row only, no repeated cell and a slice-of-struct
target, `DecodeCSV` panics when a `csv` tag of the struct is not a regular expression. -/
theorem DecodeCSV_headerOnly_panics :
    DecodeCSV asciiLib (NewDecoder (.records [[goStr "Zip"]]))
      (.sliceOfStruct true true badPatternSchema []) = .panic .regexpCompile := by
  decide

/-- C8, amended: on an input with zero rows `DecodeCSV` fails with the error
"empty csv file", whatever the target; on an input of a header row only, without repeated
cells, into an empty slice of structs whose binding patterns all compile, it returns no
error and the slice stays empty. -/
theorem DecodeCSV_empty_and_headerOnly (L : Lib) (d : CSVDecoder) :
    (∀ v, d.file = .records [] →
      DecodeCSV L d v = .error (.text (goStr "empty csv file"))) ∧
    (∀ (headerRow : Row) (addressable ptrElem : Bool) (schema : Schema),
      d.file = .records [headerRow] → headerRow.Nodup →
      (∀ f ∈ schema, ∀ rgx, f.csv = some rgx → ∀ cell ∈ headerRow,
        L.matchString (bindingPattern f rgx) cell ≠ none) →
      ∃ header, DecodeCSV L d (.sliceOfStruct addressable ptrElem schema []) =
        .ok (⟨header, .records []⟩, [])) := by
  refine ⟨?_, ?_⟩
  · intro v hfile
    simp [DecodeCSV, hfile, GetCSVRows, csvReadAll, Outcome.bind]
  · intro headerRow addressable ptrElem schema hfile hnd hcomp
    obtain ⟨header, hb⟩ := bindHeader_total L schema 0 headerRow d.header hcomp
    have hc : CheckForDoubleHeaderNames headerRow = none :=
      (CheckForDoubleHeaderNames_nodup headerRow).2 hnd
    exact ⟨header, by
      simp [DecodeCSV, hfile, GetCSVRows, csvReadAll, firstMiscount, Outcome.bind, hc, hb,
        rowLoop]⟩

/-- C8, amended, on an empty input and on the header row of the end-to-end example. -/
theorem DecodeCSV_empty_and_headerOnly_witness :
    DecodeCSV asciiLib (NewDecoder (.records [])) (.sliceOfStruct true true endToEndSchema [])
      = .error (.text (goStr "empty csv file")) ∧
    ∃ header, DecodeCSV asciiLib (NewDecoder (.records [[goStr "Name", goStr "Phone"]]))
      (.sliceOfStruct true true endToEndSchema []) = .ok (⟨header, .records []⟩, []) :=
  ⟨(DecodeCSV_empty_and_headerOnly asciiLib (NewDecoder (.records []))).1 _ rfl,
   (DecodeCSV_empty_and_headerOnly asciiLib
      (NewDecoder (.records [[goStr "Name", goStr "Phone"]]))).2
      [goStr "Name", goStr "Phone"] true true endToEndSchema rfl (by decide) (by
        intro f hf rgx hc cell hcell
        simp only [endToEndSchema, List.mem_cons, List.mem_singleton, List.not_mem_nil,
          or_false] at hf hcell
        rcases hf with rfl | rfl | rfl | rfl <;> simp at hc <;> subst hc <;>
          rcases hcell with rfl | rfl <;> decide)⟩

theorem rowLoop_eq_ok (L : Lib) (header : HeaderMap) (schema : Schema)
    (addressable ptrElem : Bool) (body : List Row) (items out : List Record)
    (h : rowLoop L header schema addressable ptrElem body items = .ok out) :
    ∃ recs, out = items ++ recs ∧ recs.length = body.length ∧
      ∀ k row, body.get? k = some row →
        ∃ r, materialize L header schema row = .ok r ∧ recs.get? k = some r := by
  induction body generalizing items with
  | nil =>
    simp only [rowLoop, Outcome.ok.injEq] at h
    exact ⟨[], by simp [h], rfl, fun k row hk => by simp at hk⟩
  | cons csvRow rest ih =>
    obtain ⟨r, hr, h1⟩ := bind_eq_ok _ _ _ h
    obtain ⟨slice2, hs, h2⟩ := bind_eq_ok _ _ _ h1
    have hslice : slice2 = items ++ [r] := by
      unfold appendRecord at hs
      split at hs
      · simp at hs
      · split at hs
        · simp at hs
        · simpa using hs.symm
    obtain ⟨recs, hout, hlen, hall⟩ := ih slice2 h2
    refine ⟨r :: recs, by simp [hout, hslice], by simp [hlen], ?_⟩
    intro k row hk
    cases k with
    | zero =>
      simp only [List.get?_cons_zero, Option.some.injEq] at hk
      subst hk
      exact ⟨r, hr, rfl⟩
    | succ k =>
      obtain ⟨r', hr', hget⟩ := hall k row (by simpa using hk)
      exact ⟨r', hr', by simpa using hget⟩

/-- C9: when `DecodeCSV` returns without error on a header row followed by the data rows
`body`, the slice holds its earlier records unchanged, followed by exactly as many new
records as there are data rows, the `k`-th new record being the one made from the `k`-th
data row with the header map of this call. -/
theorem DecodeCSV_appends_in_order (L : Lib) (d d' : CSVDecoder)
    (addressable ptrElem : Bool) (schema : Schema) (items out : List Record)
    (headerRow : Row) (body : List Row)
    (hrows : GetCSVRows d.file = .ok (headerRow :: body))
    (h : DecodeCSV L d (.sliceOfStruct addressable ptrElem schema items) = .ok (d', out)) :
    ∃ recs, out = items ++ recs ∧ recs.length = body.length ∧
      ∀ k row, body.get? k = some row →
        ∃ r, materialize L d'.header schema row = .ok r ∧ recs.get? k = some r := by
  unfold DecodeCSV at h
  simp only [hrows, Outcome.bind] at h
  cases hc : CheckForDoubleHeaderNames headerRow with
  | some e => simp [hc] at h
  | none =>
    simp only [hc] at h
    cases hb : bindHeader L schema 0 headerRow d.header with
    | ok header =>
      simp only [hb] at h
      cases hl : rowLoop L header schema addressable ptrElem body items with
      | ok slice =>
        simp only [hl, Outcome.ok.injEq, Prod.mk.injEq] at h
        obtain ⟨hd, hs⟩ := h
        subst hd hs
        exact rowLoop_eq_ok L header schema addressable ptrElem body items slice hl
      | error e => simp [hl] at h
      | panic p => simp [hl] at h
      | fatal e => simp [hl] at h
    | error e => simp [hb] at h
    | panic p => simp [hb] at h
    | fatal e => simp [hb] at h

/-- C9 on a decode of two data rows into a slice that already holds one record. -/
theorem DecodeCSV_appends_in_order_witness :
    ∃ recs,
      [[(goStr "Zip", Value.str (goStr "1")), (goStr "Zip4", Value.str [])],
       [(goStr "Zip", Value.str (goStr "92882")), (goStr "Zip4", Value.str (goStr "1234"))],
       [(goStr "Zip", Value.str (goStr "00501")), (goStr "Zip4", Value.str [])]] =
        [[(goStr "Zip", Value.str (goStr "1")), (goStr "Zip4", Value.str [])]] ++ recs ∧
      recs.length = [[goStr "92882-1234"], [goStr "00501"]].length ∧
      ∀ k row, [[goStr "92882-1234"], [goStr "00501"]].get? k = some row →
        ∃ r, materialize asciiLib [(goStr "Zip", 0)] zipSchema row = .ok r ∧
          recs.get? k = some r :=
  DecodeCSV_appends_in_order asciiLib
    (NewDecoder (.records [[goStr "Zip"], [goStr "92882-1234"], [goStr "00501"]]))
    ⟨[(goStr "Zip", 0)], .records []⟩ true true zipSchema
    [[(goStr "Zip", .str (goStr "1")), (goStr "Zip4", .str [])]]
    [[(goStr "Zip", .str (goStr "1")), (goStr "Zip4", .str [])],
     [(goStr "Zip", .str (goStr "92882")), (goStr "Zip4", .str (goStr "1234"))],
     [(goStr "Zip", .str (goStr "00501")), (goStr "Zip4", .str [])]]
    [goStr "Zip"] [[goStr "92882-1234"], [goStr "00501"]] (by decide) (by decide)

/-! ### Short rows and column indices -/

theorem NoIndexFault.bind {α β : Type} (x : Outcome α) (f : α → Outcome β)
    (hx : NoIndexFault x) (hf : ∀ a, x = .ok a → NoIndexFault (f a)) :
    NoIndexFault (x.bind f) := by
  cases x with
  | ok a => exact hf a rfl
  | error e => simp [NoIndexFault, Outcome.bind]
  | panic p => simpa [NoIndexFault, Outcome.bind] using hx
  | fatal e => simp [NoIndexFault, Outcome.bind]

theorem SetString_noIndexFault (r : Record) (name s : GoString) :
    NoIndexFault (SetString r name s) := by
  unfold SetString NoIndexFault
  cases fieldByName r name with
  | none => simp
  | some v => cases v <;> simp

theorem SetTime_noIndexFault (r : Record) (name : GoString) (t : Time) :
    NoIndexFault (SetTime r name t) := by
  unfold SetTime NoIndexFault
  cases fieldByName r name with
  | none => simp
  | some v => cases v <;> simp

theorem goIndex_of_lt {α : Type} (xs : List α) (i : Nat) (h : i < xs.length) :
    ∃ x, goIndex xs i = .ok x := by
  refine ⟨xs.get ⟨i, h⟩, ?_⟩
  simp only [goIndex, List.get?_eq_get h]

theorem FormatStringVals_noIndexFault (L : Lib) (format val : GoString) :
    NoIndexFault (FormatStringVals L format val) := by
  unfold FormatStringVals NoIndexFault
  obtain ⟨v, hv⟩ := FormatPhone_total val
  repeat' split
  all_goals simp [hv]

theorem assignField_noIndexFault (L : Lib) (header : HeaderMap) (csvRow : Row) (f : Field)
    (r : Record) (hcol : ∀ c, mapGet header f.Name = some c → c < csvRow.length) :
    NoIndexFault (assignField L header csvRow f r) := by
  unfold assignField
  cases hm : mapGet header f.Name with
  | none => cases f.Kind <;> simp [NoIndexFault]
  | some c =>
    obtain ⟨cell, hcell⟩ := goIndex_of_lt csvRow c (hcol c hm)
    cases f.Kind with
    | time =>
      simp only [hcell, Outcome.bind]
      exact SetTime_noIndexFault _ _ _
    | string =>
      cases f.fmt with
      | none => simp [NoIndexFault]
      | some format =>
        by_cases hd : format = goStr "-"
        · simp only [hd, ne_eq, not_true_eq_false, if_false, hcell, Outcome.bind]
          exact SetString_noIndexFault _ _ _
        · simp only [ne_eq, hd, not_false_eq_true, if_true, hcell, Outcome.bind]
          have hfv := FormatStringVals_noIndexFault L format cell
          cases hv : FormatStringVals L format cell with
          | ok v => exact SetString_noIndexFault _ _ _
          | error e => simp [NoIndexFault]
          | panic p =>
            rw [hv] at hfv
            simpa [NoIndexFault] using hfv
          | fatal e => simp [NoIndexFault]

theorem postProcess_noIndexFault (L : Lib) (r : Record) : NoIndexFault (postProcess L r) := by
  unfold postProcess
  apply NoIndexFault.bind
  · split
    · apply NoIndexFault.bind
      · exact SetString_noIndexFault _ _ _
      · intro r1 _
        apply NoIndexFault.bind
        · exact SetString_noIndexFault _ _ _
        · intro r2 _
          exact SetString_noIndexFault _ _ _
    · simp [NoIndexFault]
  · intro r3 _
    split
    · apply NoIndexFault.bind
      · obtain ⟨z, hz⟩ := ParseZip_total (fmtSprint L (fieldByName r3 (goStr "Zip")))
        simp [NoIndexFault, hz]
      · intro z _
        apply NoIndexFault.bind
        · exact SetString_noIndexFault _ _ _
        · intro r4 _
          split
          · exact SetString_noIndexFault _ _ _
          · simp [NoIndexFault]
    · simp [NoIndexFault]

theorem fieldLoop_noIndexFault (L : Lib) (header : HeaderMap) (csvRow : Row) (n j : Nat)
    (fs : List Field) (r : Record)
    (hcol : ∀ name c, mapGet header name = some c → c < csvRow.length) :
    NoIndexFault (fieldLoop L header csvRow n j fs r) := by
  induction fs generalizing j r with
  | nil => simp [fieldLoop, NoIndexFault]
  | cons f fs ih =>
    unfold fieldLoop
    apply NoIndexFault.bind
    · exact assignField_noIndexFault L header csvRow f r (hcol f.Name)
    · intro r1 _
      apply NoIndexFault.bind
      · split
        · exact postProcess_noIndexFault L r1
        · simp [NoIndexFault]
      · intro r2 _
        exact ih (j + 1) r2

theorem rowLoop_noIndexFault (L : Lib) (header : HeaderMap) (schema : Schema)
    (addressable ptrElem : Bool) (body : List Row) (items : List Record)
    (hcol : ∀ row ∈ body, ∀ name c, mapGet header name = some c → c < row.length) :
    NoIndexFault (rowLoop L header schema addressable ptrElem body items) := by
  induction body generalizing items with
  | nil => simp [rowLoop, NoIndexFault]
  | cons csvRow rest ih =>
    unfold rowLoop
    apply NoIndexFault.bind
    · exact fieldLoop_noIndexFault L header csvRow _ _ _ _
        (hcol csvRow (List.mem_cons_self _ _))
    · intro r _
      apply NoIndexFault.bind
      · unfold appendRecord
        repeat' split
        all_goals simp [NoIndexFault]
      · intro slice2 _
        exact ih slice2 (fun row hrow => hcol row (List.mem_cons_of_mem _ hrow))

theorem bindFields_noIndexFault (L : Lib) (i : Nat) (cell : GoString) (fs : List Field)
    (m : HeaderMap) : NoIndexFault (bindFields L i cell fs m) := by
  induction fs generalizing m with
  | nil => simp [bindFields, NoIndexFault]
  | cons f fs ih =>
    unfold bindFields
    cases f.csv with
    | none => exact ih m
    | some rgx =>
      simp only
      cases L.matchString (if rgx = goStr "-" then f.Name else rgx) cell with
      | none => simp [NoIndexFault]
      | some b => cases b <;> exact ih _

theorem bindHeader_noIndexFault (L : Lib) (schema : Schema) (i : Nat) (cells : Row)
    (m : HeaderMap) : NoIndexFault (bindHeader L schema i cells m) := by
  induction cells generalizing i m with
  | nil => simp [bindHeader, NoIndexFault]
  | cons c cs ih =>
    unfold bindHeader
    exact NoIndexFault.bind _ _ (bindFields_noIndexFault L i c schema m) (fun m1 _ => ih _ m1)

theorem bindHeader_range (L : Lib) (schema : Schema) (i : Nat) (cells : Row)
    (m m' : HeaderMap) (h : bindHeader L schema i cells m = .ok m') (name : GoString) (c : Nat)
    (hc : mapGet m' name = some c) :
    mapGet m name = some c ∨ (i ≤ c ∧ c < i + cells.length) := by
  rw [bindHeader_get L schema i cells m m' h name] at hc
  rcases lastIndexFrom_eq_some _ _ _ _ _ hc with ⟨hacc, -⟩ | ⟨j, cell, hk, hj, -, -⟩
  · exact Or.inl hacc
  · have hlt := (List.get?_eq_some.1 hj).1
    exact Or.inr ⟨by omega, by omega⟩

theorem firstMiscount_eq_none (n k : Nat) (rs : List Row) :
    firstMiscount n k rs = none ↔ ∀ r ∈ rs, r.length = n := by
  induction rs generalizing k with
  | nil => simp [firstMiscount]
  | cons r rs ih =>
    by_cases hr : r.length = n
    · simp [firstMiscount, hr, ih]
    · simp [firstMiscount, hr]

theorem GetCSVRows_uniform (input : Scan) (headerRow : Row) (body : List Row)
    (h : GetCSVRows input = .ok (headerRow :: body)) :
    ∀ row ∈ body, row.length = headerRow.length := by
  unfold GetCSVRows at h
  cases input with
  | malformed msg => simp [csvReadAll] at h
  | records rs =>
    cases rs with
    | nil => simp [csvReadAll] at h
    | cons r rest =>
      unfold csvReadAll at h
      cases hm : firstMiscount r.length 1 rest with
      | none =>
        simp only [hm, Outcome.ok.injEq, List.cons.injEq] at h
        obtain ⟨rfl, rfl⟩ := h
        exact (firstMiscount_eq_none _ _ _).1 hm
      | some k => simp [hm] at h

/-- A decoder keeps its header map between calls. After a decode of a two-column input
has bound `City` to column 1, a second decode with the same decoder of a one-column input
(every row as wide as its header row, so no row is short) reads `row[1]` of a one-cell row
and panics with an index out of range. -/
theorem DecodeCSV_reused_indexOutOfRange :
    DecodeCSV asciiLib
        (NewDecoder (.records [[goStr "Zip", goStr "City"], [goStr "92882", goStr "Corona"]]))
        (.sliceOfStruct true true citySchema []) =
      .ok (⟨[(goStr "City", 1), (goStr "Zip", 0)], .records []⟩,
        [[(goStr "Zip", .str (goStr "92882")), (goStr "Zip4", .str []),
          (goStr "City", .str (goStr "Corona"))]]) ∧
    DecodeCSV asciiLib
        ⟨[(goStr "City", 1), (goStr "Zip", 0)], .records [[goStr "Zip"], [goStr "92882"]]⟩
        (.sliceOfStruct true true citySchema []) =
      .panic .indexOutOfRange :=
  ⟨by decide, by decide⟩

/-- A decode with a freshly created decoder never ends in an out-of-range panic, whatever
the input, the target and the library. An input in which a data row has not as many cells
as the header row is answered with the read error of `GetCSVRows`, and when the rows are
read every data row is as wide as the header row. -/
theorem DecodeCSV_fresh_noIndexFault (L : Lib) (input : Scan) (v : Target) :
    DecodeCSV L (NewDecoder input) v ≠ .panic .indexOutOfRange ∧
    (∀ (headerRow : Row) (body : List Row), input = .records (headerRow :: body) →
      (∃ row ∈ body, row.length ≠ headerRow.length) →
      ∃ k, DecodeCSV L (NewDecoder input) v = .error (.unreadable (.fieldCount k))) ∧
    (∀ (headerRow : Row) (body : List Row), GetCSVRows input = .ok (headerRow :: body) →
      ∀ row ∈ body, row.length = headerRow.length) := by
  refine ⟨?_, ?_, GetCSVRows_uniform input⟩
  · show NoIndexFault (DecodeCSV L (NewDecoder input) v)
    unfold DecodeCSV
    apply NoIndexFault.bind
    · simp only [NewDecoder, GetCSVRows, NoIndexFault]
      cases csvReadAll input <;> simp
    · intro csvRows hrows
      cases csvRows with
      | nil => simp [NoIndexFault]
      | cons headerRow body =>
        simp only
        cases CheckForDoubleHeaderNames headerRow with
        | some e => simp [NoIndexFault]
        | none =>
          cases v with
          | notSlice => simp [NoIndexFault]
          | sliceOfOther => simp [NoIndexFault]
          | sliceOfStruct addressable ptrElem schema items =>
            simp only
            apply NoIndexFault.bind
            · exact bindHeader_noIndexFault L schema 0 headerRow _
            · intro header hb
              apply NoIndexFault.bind
              · apply rowLoop_noIndexFault
                intro row hrow name c hc
                rcases bindHeader_range L schema 0 headerRow _ header hb name c hc with h0 | h1
                · simp [NewDecoder, mapGet] at h0
                · rw [GetCSVRows_uniform input headerRow body hrows row hrow]
                  omega
              · intro slice _
                simp [NoIndexFault]
  · rintro headerRow body rfl ⟨row, hrow, hne⟩
    cases hm : firstMiscount headerRow.length 1 body with
    | none => exact absurd ((firstMiscount_eq_none _ _ _).1 hm row hrow) hne
    | some k =>
      exact ⟨k, by simp [DecodeCSV, NewDecoder, GetCSVRows, csvReadAll, hm, Outcome.bind]⟩

/-- A fresh decoder on an input whose data row is shorter than the header row: the decode
returns the read error. -/
theorem DecodeCSV_fresh_noIndexFault_witness :
    ∃ k, DecodeCSV asciiLib
        (NewDecoder (.records [[goStr "Zip", goStr "City"], [goStr "92882"]]))
        (.sliceOfStruct true true citySchema []) = .error (.unreadable (.fieldCount k)) :=
  (DecodeCSV_fresh_noIndexFault asciiLib
    (.records [[goStr "Zip", goStr "City"], [goStr "92882"]])
    (.sliceOfStruct true true citySchema [])).2.1
    [goStr "Zip", goStr "City"] [[goStr "92882"]] rfl ⟨[goStr "92882"], by simp, by decide⟩

/-- C10: short rows cause no out-of-bounds fault. For every decoder (whatever its header
map holds), target and library, an input in which a data row is shorter than the header
row makes `DecodeCSV` return the read error of `GetCSVRows` (the missing cell is an error):
no row is materialized and no row is indexed, so the call does not panic out of range.
Every input whose rows do reach the row loop has data rows as wide as the header row. -/
theorem DecodeCSV_short_row_is_error (L : Lib) (d : CSVDecoder) (v : Target) :
    (∀ (headerRow : Row) (body : List Row), d.file = .records (headerRow :: body) →
      (∃ row ∈ body, row.length < headerRow.length) →
      (∃ k, DecodeCSV L d v = .error (.unreadable (.fieldCount k))) ∧
      DecodeCSV L d v ≠ .panic .indexOutOfRange) ∧
    (∀ (headerRow : Row) (body : List Row), GetCSVRows d.file = .ok (headerRow :: body) →
      ∀ row ∈ body, row.length = headerRow.length) := by
  refine ⟨?_, GetCSVRows_uniform d.file⟩
  rintro headerRow body hfile ⟨row, hrow, hlt⟩
  cases hm : firstMiscount headerRow.length 1 body with
  | none =>
    have := (firstMiscount_eq_none _ _ _).1 hm row hrow
    omega
  | some k =>
    have he : DecodeCSV L d v = .error (.unreadable (.fieldCount k)) := by
      simp [DecodeCSV, hfile, GetCSVRows, csvReadAll, hm, Outcome.bind]
    exact ⟨⟨k, he⟩, by rw [he]; exact fun hne => Outcome.noConfusion hne⟩

/-- C10 on a decoder whose map still binds `City` to column 1 and an input whose data row
lacks that column: the decode returns the read error. -/
theorem DecodeCSV_short_row_is_error_witness :
    (∃ k, DecodeCSV asciiLib
        ⟨[(goStr "City", 1), (goStr "Zip", 0)],
          .records [[goStr "Zip", goStr "City"], [goStr "92882"]]⟩
        (.sliceOfStruct true true citySchema []) = .error (.unreadable (.fieldCount k))) ∧
    DecodeCSV asciiLib
        ⟨[(goStr "City", 1), (goStr "Zip", 0)],
          .records [[goStr "Zip", goStr "City"], [goStr "92882"]]⟩
        (.sliceOfStruct true true citySchema []) ≠ .panic .indexOutOfRange :=
  (DecodeCSV_short_row_is_error asciiLib
    ⟨[(goStr "City", 1), (goStr "Zip", 0)],
      .records [[goStr "Zip", goStr "City"], [goStr "92882"]]⟩
    (.sliceOfStruct true true citySchema [])).1
    [goStr "Zip", goStr "City"] [[goStr "92882"]] rfl ⟨[goStr "92882"], by simp, by decide⟩

/-! ### StripSep -/

theorem replaceScan_single (c : Nat) (s : GoString) :
    replaceScan [c] [] 0 s = s.filter (fun b => b != c) := by
  induction s with
  | nil => rfl
  | cons b s ih =>
    by_cases hb : b = c
    · subst hb
      simp [replaceScan, hasPrefix, ih]
    · simp [replaceScan, hasPrefix, hb, ih]

theorem foldl_remove (cs : List Nat) (p : GoString) :
    (cs.map fun c => [c]).foldl (fun p v => stringsReplaceAll p v []) p =
      p.filter (fun b => !cs.contains b) := by
  induction cs generalizing p with
  | nil => simp
  | cons c cs ih =>
    simp only [List.map_cons, List.foldl_cons, stringsReplaceAll, replaceScan_single]
    have h := ih (p.filter fun b => b != c)
    simp only [stringsReplaceAll] at h
    rw [h, List.filter_filter]
    congr 1
    funext b
    by_cases hb : b = c
    · simp [hb]
    · have hcb : ¬ c = b := fun e => hb e.symm
      simp [hb, hcb, Bool.and_comm]

theorem sep_eq : sep = sepBytes.map fun c => [c] := by
  decide

/-- C11: `StripSep p` is `p` without the bytes of the listed separators, the other bytes
kept in their order; no listed separator is left in the result; and removing the
separators in any other order gives the same string. -/
theorem StripSep_spec (p : GoString) :
    StripSep p = p.filter (fun b => !sepBytes.contains b) ∧
    (∀ b ∈ StripSep p, b ∉ sepBytes) ∧
    (∀ cs : List Nat, cs.Perm sepBytes →
      (cs.map fun c => [c]).foldl (fun p v => stringsReplaceAll p v []) p = StripSep p) := by
  have h1 : StripSep p = p.filter (fun b => !sepBytes.contains b) := by
    rw [StripSep, sep_eq, foldl_remove]
  refine ⟨h1, ?_, ?_⟩
  · intro b hb
    rw [h1, List.mem_filter] at hb
    simpa using hb.2
  · intro cs hperm
    rw [h1, foldl_remove]
    congr 1
    funext b
    have : b ∈ cs ↔ b ∈ sepBytes := hperm.mem_iff
    by_cases hb : b ∈ sepBytes
    · simp [hb, this.2 hb]
    · simp [hb, mt this.1 hb]

/-- C11 on the separators taken in reverse order and on the test string. -/
theorem StripSep_spec_witness :
    (sepBytes.reverse.map fun c => [c]).foldl (fun p v => stringsReplaceAll p v [])
        (goStr "#$*string&()&") = StripSep (goStr "#$*string&()&") ∧
    StripSep (goStr "#$*string&()&") = goStr "string" :=
  ⟨(StripSep_spec (goStr "#$*string&()&")).2.2 sepBytes.reverse (List.reverse_perm _),
   by decide⟩

/-! ### TrimZeros -/

theorem trimZerosLoop_zeros (n k : Nat) (t : GoString) (hk : k ≤ n)
    (ht : t.head? ≠ some 48) : trimZerosLoop n (zeros k ++ t) = t := by
  induction n generalizing k with
  | zero =>
    have : k = 0 := by omega
    subst this
    rfl
  | succ n ih =>
    have h0 : goStr "0" = [48] := by decide
    cases k with
    | zero =>
      have hstay : stringsTrimPrefix t (goStr "0") = t := by
        rw [h0]
        cases t with
        | nil => rfl
        | cons b t =>
          have hb : b ≠ 48 := by simpa using ht
          simp [stringsTrimPrefix, hasPrefix, hb]
      have := ih 0 (by omega)
      simp only [zeros, List.replicate, List.nil_append] at this ⊢
      rw [trimZerosLoop, hstay, this]
    | succ k =>
      have hdrop : stringsTrimPrefix (zeros (k + 1) ++ t) (goStr "0") = zeros k ++ t := by
        rw [h0]
        simp [stringsTrimPrefix, hasPrefix, zeros, List.replicate]
      rw [trimZerosLoop, hdrop]
      exact ih k (by omega)

theorem zeros_split (s : GoString) :
    ∃ k t, s = zeros k ++ t ∧ t.head? ≠ some 48 ∧ k ≤ s.length := by
  induction s with
  | nil => exact ⟨0, [], rfl, by simp, by simp⟩
  | cons b s ih =>
    by_cases hb : b = 48
    · obtain ⟨k, t, hs, ht, hk⟩ := ih
      refine ⟨k + 1, t, ?_, ht, by simp; omega⟩
      rw [hb, hs]
      rfl
    · exact ⟨0, b :: s, rfl, by simpa using hb, by simp⟩

/-- C12: every string is some number of '0' followed by its `TrimZeros`, and `TrimZeros`
of a string does not start with '0'; a string of `n` zeros, for any `n`, trims to the empty
string. -/
theorem TrimZeros_spec (s : GoString) :
    (∃ k, s = zeros k ++ TrimZeros s) ∧ (TrimZeros s).head? ≠ some 48 ∧
    ∀ n, TrimZeros (zeros n) = [] := by
  obtain ⟨k, t, hs, ht, hk⟩ := zeros_split s
  have hres : TrimZeros s = t := by
    have h := trimZerosLoop_zeros s.length k t hk ht
    rw [← hs] at h
    exact h
  refine ⟨⟨k, by rw [hres]; exact hs⟩, by rw [hres]; exact ht, ?_⟩
  intro n
  have := trimZerosLoop_zeros n n [] (Nat.le_refl n) (by simp)
  simpa [TrimZeros, zeros] using this

/-! ### FormatStringVals and ParseDate -/

theorem FormatStringVals_unrecognised (L : Lib) (format val : GoString)
    (h : format ∉ recognised) :
    FormatStringVals L format val = .error (.text invalidFormatText) := by
  simp only [recognised, List.mem_cons, List.mem_singleton, List.not_mem_nil, or_false,
    not_or] at h
  obtain ⟨h1, h2, h3, h4, h5⟩ := h
  unfold FormatStringVals
  rw [if_neg h1, if_neg h2, if_neg h3, if_neg h4, if_neg h5]
  rfl

/-- C14: `FormatStringVals` returns an error exactly when the directive is none of tc, uc,
lc, fp, ss; in particular for "-" and for the empty directive. For the five directives it
returns `TCase`, `UCase`, `LCase`, `FormatPhone` (which always returns a value) and
`StripSep` of the value. -/
theorem FormatStringVals_spec (L : Lib) (format val : GoString) :
    ((∃ e, FormatStringVals L format val = .error e) ↔ format ∉ recognised) ∧
    (∃ e, FormatStringVals L (goStr "-") val = .error e) ∧
    (∃ e, FormatStringVals L [] val = .error e) ∧
    FormatStringVals L (goStr "tc") val = .ok (TCase L val) ∧
    FormatStringVals L (goStr "uc") val = .ok (UCase L val) ∧
    FormatStringVals L (goStr "lc") val = .ok (LCase L val) ∧
    (∃ v, FormatPhone val = .ok v ∧ FormatStringVals L (goStr "fp") val = .ok v) ∧
    FormatStringVals L (goStr "ss") val = .ok (StripSep val) := by
  refine ⟨⟨?_, fun h => ⟨_, FormatStringVals_unrecognised L format val h⟩⟩,
    ⟨_, FormatStringVals_unrecognised L _ val (by decide)⟩,
    ⟨_, FormatStringVals_unrecognised L _ val (by decide)⟩, ?_, ?_, ?_, ?_, ?_⟩
  · rintro ⟨e, he⟩ hrec
    obtain ⟨v, hv⟩ := FormatStringVals_recognised L format val hrec
    rw [hv] at he
    exact Outcome.noConfusion he
  · unfold FormatStringVals
    rw [if_pos rfl]
  · unfold FormatStringVals
    rw [if_neg (by decide), if_pos rfl]
  · unfold FormatStringVals
    rw [if_neg (by decide), if_neg (by decide), if_pos rfl]
  · obtain ⟨v, hv⟩ := FormatPhone_total val
    refine ⟨v, hv, ?_⟩
    unfold FormatStringVals
    rw [if_neg (by decide), if_neg (by decide), if_neg (by decide), if_pos rfl, hv]
  · unfold FormatStringVals
    rw [if_neg (by decide), if_neg (by decide), if_neg (by decide), if_neg (by decide),
      if_pos rfl]

/-- C14 on an unknown directive. -/
theorem FormatStringVals_spec_witness :
    ∃ e, FormatStringVals asciiLib (goStr "title") (goStr "john doe") = .error e :=
  (FormatStringVals_spec asciiLib (goStr "title") (goStr "john doe")).1.2 (by decide)

/-- C15, as stated, fails: the error returned for the unknown directive "xx" has a text in
which "xx" does not occur. -/
theorem FormatStringVals_error_omits_token :
    FormatStringVals asciiLib (goStr "xx") (goStr "john doe") =
      .error (.text (goStr "Invalid string format: use [tc, uc, lc, fp, ss]")) ∧
    containsSub (goStr "xx") (goStr "Invalid string format: use [tc, uc, lc, fp, ss]")
      = false :=
  ⟨by decide, by decide⟩

/-- C15, amended: for every directive that is none of tc, uc, lc, fp, ss the error returned
is the same fixed text, "Invalid string format: use [tc, uc, lc, fp, ss]", which lists the
recognised directives and does not depend on the directive given. -/
theorem FormatStringVals_error_fixed (L : Lib) (format val : GoString)
    (h : format ∉ recognised) :
    FormatStringVals L format val =
      .error (.text (goStr "Invalid string format: use [tc, uc, lc, fp, ss]")) :=
  FormatStringVals_unrecognised L format val h

/-- C15, amended, on the directive "xx". -/
theorem FormatStringVals_error_fixed_witness :
    goStr "xx" ∉ recognised ∧
    FormatStringVals asciiLib (goStr "xx") (goStr "john doe") =
      .error (.text (goStr "Invalid string format: use [tc, uc, lc, fp, ss]")) :=
  ⟨by decide, FormatStringVals_error_fixed asciiLib (goStr "xx") (goStr "john doe") (by decide)⟩

theorem parseDateLoop_first (L : Lib) (d : GoString) (layouts : List GoString) (k : Nat)
    (layout : GoString) (t : Time) (hk : layouts.get? k = some layout)
    (ht : L.timeParse layout d = some t)
    (hbefore : ∀ j l, j < k → layouts.get? j = some l → L.timeParse l d = none) :
    parseDateLoop L d layouts = t := by
  induction layouts generalizing k with
  | nil => simp at hk
  | cons f fs ih =>
    cases k with
    | zero =>
      simp only [List.get?_cons_zero, Option.some.injEq] at hk
      subst hk
      simp [parseDateLoop, ht]
    | succ k =>
      have hf : L.timeParse f d = none := hbefore 0 f (by omega) rfl
      simp only [parseDateLoop, hf]
      exact ih k (by simpa using hk)
        (fun j l hj hl => hbefore (j + 1) l (by omega) (by simpa using hl))

theorem parseDateLoop_none (L : Lib) (d : GoString) (layouts : List GoString)
    (h : ∀ l ∈ layouts, L.timeParse l d = none) : parseDateLoop L d layouts = Time.zero := by
  induction layouts with
  | nil => rfl
  | cons f fs ih =>
    simp only [parseDateLoop, h f (List.mem_cons_self _ _)]
    exact ih (fun l hl => h l (List.mem_cons_of_mem _ hl))

/-- C17: the layouts are tried in the order 1/2/2006, 1-2-2006, 1/2/06, 1-2-06, 2006/1/2,
2006-1-2, RFC 3339, and for a non-empty string `ParseDate` returns the time of the first
layout under which `time.Parse` succeeds; for the empty string, and for a string that
parses under no layout, it returns the zero time. Its result is always a time. -/
theorem ParseDate_spec (L : Lib) (d : GoString) :
    formats = [goStr "1/2/2006", goStr "1-2-2006", goStr "1/2/06", goStr "1-2-06",
      goStr "2006/1/2", goStr "2006-1-2", goStr "2006-01-02T15:04:05Z07:00"] ∧
    (∀ k layout t, d ≠ [] → formats.get? k = some layout → L.timeParse layout d = some t →
      (∀ j l, j < k → formats.get? j = some l → L.timeParse l d = none) →
      ParseDate L d = t) ∧
    (d = [] → ParseDate L d = Time.zero) ∧
    ((∀ l ∈ formats, L.timeParse l d = none) → ParseDate L d = Time.zero) := by
  refine ⟨rfl, ?_, ?_, ?_⟩
  · intro k layout t hd hk ht hbefore
    simp only [ParseDate, ne_eq, hd, not_false_eq_true, if_true]
    exact parseDateLoop_first L d formats k layout t hk ht hbefore
  · intro hd
    simp [ParseDate, hd]
  · intro hnone
    unfold ParseDate
    split
    · exact parseDateLoop_none L d formats hnone
    · rfl

/-- C17 on "12-31-2003", which parses under the second layout and not under the first. -/
theorem ParseDate_spec_witness :
    ParseDate dateLib (goStr "12-31-2003") = ⟨0, 63208425600, none⟩ ∧
    ParseDate dateLib [] = Time.zero :=
  ⟨(ParseDate_spec dateLib (goStr "12-31-2003")).2.1 1 (goStr "1-2-2006")
      ⟨0, 63208425600, none⟩ (by decide) (by decide) (by decide)
      (by
        intro j l hj hl
        have h0 : j = 0 := by omega
        subst h0
        simp only [formats, List.get?_cons_zero, Option.some.injEq] at hl
        subst hl
        decide),
   (ParseDate_spec dateLib []).2.2.1 rfl⟩

/-! ### Fields without a binding pattern; column indices of a fresh decoder -/

/-- C16: a field without `csv` tag is not bound although a header cell is its name. The
decode of the header `Zip` and the row `92882` into a struct whose field `Zip` has no
`csv` tag leaves the header map empty and the field empty; with the tag `csv:"-"` the same
field is bound to column 0 by its name and receives the cell. -/
theorem DecodeCSV_untagged_not_bound :
    DecodeCSV asciiLib (NewDecoder (.records [[goStr "Zip"], [goStr "92882"]]))
        (.sliceOfStruct true true untaggedSchema []) =
      .ok (⟨[], .records []⟩, [[(goStr "Zip", .str []), (goStr "Zip4", .str [])]]) ∧
    DecodeCSV asciiLib (NewDecoder (.records [[goStr "Zip"], [goStr "92882"]]))
        (.sliceOfStruct true true sentinelSchema []) =
      .ok (⟨[(goStr "Zip", 0)], .records []⟩,
        [[(goStr "Zip", .str (goStr "92882")), (goStr "Zip4", .str [])]]) :=
  ⟨by decide, by decide⟩

/-- C20: when the binding pass starts from the empty map of a fresh decoder, every column
index in the resulting map is below the length of the header row; so in a row at least as
wide as the header row every bound column holds a cell, and the row loop over such rows
does not end in an out-of-range panic. -/
theorem bindHeader_fresh_in_range (L : Lib) (schema : Schema) (headerRow : Row)
    (input : Scan) (header : HeaderMap)
    (hb : bindHeader L schema 0 headerRow (NewDecoder input).header = .ok header) :
    (∀ name c, mapGet header name = some c → c < headerRow.length) ∧
    (∀ row : Row, headerRow.length ≤ row.length →
      ∀ name c, mapGet header name = some c → ∃ cell, goIndex row c = .ok cell) ∧
    (∀ (addressable ptrElem : Bool) (body : List Row) (items : List Record),
      (∀ row ∈ body, headerRow.length ≤ row.length) →
      rowLoop L header schema addressable ptrElem body items ≠ .panic .indexOutOfRange) := by
  have hrange : ∀ name c, mapGet header name = some c → c < headerRow.length := by
    intro name c hc
    rcases bindHeader_range L schema 0 headerRow _ header hb name c hc with h0 | h1
    · simp [NewDecoder, mapGet] at h0
    · omega
  refine ⟨hrange, ?_, ?_⟩
  · intro row hrow name c hc
    exact goIndex_of_lt row c (Nat.lt_of_lt_of_le (hrange name c hc) hrow)
  · intro addressable ptrElem body items hbody
    exact rowLoop_noIndexFault L header schema addressable ptrElem body items
      (fun row hrow name c hc => Nat.lt_of_lt_of_le (hrange name c hc) (hbody row hrow))

/-- C20 on the end-to-end example: the map bound from the three-cell header row gives
`Zip` column 2, and the data row holds a cell there. -/
theorem bindHeader_fresh_in_range_witness :
    bindHeader asciiLib endToEndSchema 0 [goStr "Name", goStr "Phone", goStr "Zip"]
        (NewDecoder endToEndInput).header =
      .ok [(goStr "Zip", 2), (goStr "Phone", 1), (goStr "Fullname", 0)] ∧
    ∃ cell, goIndex [goStr "john doe", goStr "9493237895", goStr "92882-1234"] 2 = .ok cell :=
  ⟨by decide,
   (bindHeader_fresh_in_range asciiLib endToEndSchema
      [goStr "Name", goStr "Phone", goStr "Zip"] endToEndInput
      [(goStr "Zip", 2), (goStr "Phone", 1), (goStr "Fullname", 0)] (by decide)).2.1
      [goStr "john doe", goStr "9493237895", goStr "92882-1234"] (by decide)
      (goStr "Zip") 2 (by decide)⟩

/-! ### The 5+4 shapes -/

theorem TrimZeros_strip (s : GoString) :
    (∃ k, s = zeros k ++ TrimZeros s) ∧ (TrimZeros s).head? ≠ some 48 := by
  obtain ⟨k, t, hs, ht, hk⟩ := zeros_split s
  have h := trimZerosLoop_zeros s.length k t hk ht
  rw [← hs] at h
  have hres : TrimZeros s = t := h
  exact ⟨⟨k, by rw [hres]; exact hs⟩, by rw [hres]; exact ht⟩

theorem TrimZeros_of_head (s : GoString) (h : s.head? ≠ some 48) : TrimZeros s = s := by
  have := trimZerosLoop_zeros s.length 0 s (Nat.zero_le _) h
  simpa [TrimZeros, zeros] using this

theorem fivePlusFour_parts (s : GoString) (h : FivePlusFourShape s) :
    ∃ five four : GoString, five.length = 5 ∧ four.length = 4 ∧
      five.all isDigit = true ∧ four.all isDigit = true ∧
      (s = five ++ four ∨ s = five ++ 45 :: four ∨ s = five ++ 32 :: four) ∧
      s.take 5 = five ∧ s.drop (s.length - 4) = four := by
  rcases h with h | h | h
  · rcases s with _|⟨b0,_|⟨b1,_|⟨b2,_|⟨b3,_|⟨b4,_|⟨b5,_|⟨b6,_|⟨b7,_|⟨b8,_|⟨b9,t⟩⟩⟩⟩⟩⟩⟩⟩⟩⟩ <;>
      simp [nineDigits] at h
    exact ⟨[b0, b1, b2, b3, b4], [b5, b6, b7, b8], rfl, rfl, by simp [h], by simp [h],
      Or.inl rfl, rfl, rfl⟩
  · rcases s with _|⟨b0,_|⟨b1,_|⟨b2,_|⟨b3,_|⟨b4,_|⟨b5,_|⟨b6,_|⟨b7,_|⟨b8,_|⟨b9,_|⟨b10,t⟩⟩⟩⟩⟩⟩⟩⟩⟩⟩⟩ <;>
      simp [fivePlusFour] at h
    obtain ⟨⟨h5, rfl⟩, h4⟩ := h
    exact ⟨[b0, b1, b2, b3, b4], [b6, b7, b8, b9], rfl, rfl, by simp [h5], by simp [h4],
      Or.inr (Or.inl rfl), rfl, rfl⟩
  · rcases s with _|⟨b0,_|⟨b1,_|⟨b2,_|⟨b3,_|⟨b4,_|⟨b5,_|⟨b6,_|⟨b7,_|⟨b8,_|⟨b9,_|⟨b10,t⟩⟩⟩⟩⟩⟩⟩⟩⟩⟩⟩ <;>
      simp [fivePlusFour] at h
    obtain ⟨⟨h5, rfl⟩, h4⟩ := h
    exact ⟨[b0, b1, b2, b3, b4], [b6, b7, b8, b9], rfl, rfl, by simp [h5], by simp [h4],
      Or.inr (Or.inr rfl), rfl, rfl⟩

theorem postProcess_zip (L : Lib) (r r' : Record) (s : GoString) (z : GoString × GoString)
    (hz : fieldByName r (goStr "Zip") = some (.str s)) (hs : s ≠ [])
    (hp : ParseZip s = .ok z) (h : postProcess L r = .ok r') :
    fieldByName r' (goStr "Zip") = some (.str z.1) := by
  unfold postProcess at h
  obtain ⟨r3, h3, hrest⟩ := bind_eq_ok _ _ _ h
  have hz3 : fieldByName r3 (goStr "Zip") = some (.str s) := by
    split at h3
    · obtain ⟨r1, h1, h12⟩ := bind_eq_ok _ _ _ h3
      obtain ⟨r2, h2, h23⟩ := bind_eq_ok _ _ _ h12
      obtain ⟨e1, -⟩ := SetString_eq_ok _ _ _ _ h1
      obtain ⟨e2, -⟩ := SetString_eq_ok _ _ _ _ h2
      obtain ⟨e3, -⟩ := SetString_eq_ok _ _ _ _ h23
      rw [e3, fieldByName_setField_ne _ _ _ _ (by decide), e2,
        fieldByName_setField_ne _ _ _ _ (by decide), e1,
        fieldByName_setField_ne _ _ _ _ (by decide), hz]
    · simp only [Outcome.ok.injEq] at h3
      rw [← h3, hz]
  simp only [hz3, fmtSprint, ne_eq, hs, not_false_eq_true, if_true, hp, Outcome.bind] at hrest
  obtain ⟨r4, h4, hlast⟩ := bind_eq_ok _ _ _ hrest
  obtain ⟨e4, old, hold⟩ := SetString_eq_ok _ _ _ _ h4
  have hz4 : fieldByName r4 (goStr "Zip") = some (.str z.1) := by
    rw [e4]
    exact fieldByName_setField_self r3 _ _ _ hold
  split at hlast
  · obtain ⟨e5, -⟩ := SetString_eq_ok _ _ _ _ hlast
    rw [e5, fieldByName_setField_ne _ _ _ _ (by decide), hz4]
  · simp only [Outcome.ok.injEq] at hlast
    rw [← hlast, hz4]

/-- C19, as stated, fails: for "00501-0012" the components returned by `ParseZip` are "501"
and "12", of three and two digits. -/
theorem ParseZip_not_five_digits :
    fivePlusFour 45 (goStr "00501-0012") = true ∧
    ParseZip (goStr "00501-0012") = .ok (goStr "501", goStr "12") ∧
    (goStr "501").length ≠ 5 ∧ (goStr "12").length ≠ 4 :=
  ⟨by decide, by decide, by decide, by decide⟩

/-- C19, amended: an input of one of the three 5+4 shapes consists of five digits and four
digits (with '-' or ' ' between them in the second and third shape), and `ParseZip` returns
the two parts with their leading zeros removed: each component is the part without some
number of leading '0', does not start with '0', and is the whole part when the part does
not start with '0'. The first component is what the cross-field block leaves in the field
`Zip`. -/
theorem ParseZip_fivePlusFour (s : GoString) (h : FivePlusFourShape s) :
    ∃ five four : GoString, five.length = 5 ∧ four.length = 4 ∧
      five.all isDigit = true ∧ four.all isDigit = true ∧
      (s = five ++ four ∨ s = five ++ 45 :: four ∨ s = five ++ 32 :: four) ∧
      ParseZip s = .ok (TrimZeros five, TrimZeros four) ∧
      (∃ k, five = zeros k ++ TrimZeros five) ∧ (TrimZeros five).head? ≠ some 48 ∧
      (∃ k, four = zeros k ++ TrimZeros four) ∧ (TrimZeros four).head? ≠ some 48 ∧
      (five.head? ≠ some 48 → TrimZeros five = five) ∧
      (four.head? ≠ some 48 → TrimZeros four = four) ∧
      (∀ (L : Lib) (r r' : Record), fieldByName r (goStr "Zip") = some (.str s) →
        postProcess L r = .ok r' →
        fieldByName r' (goStr "Zip") = some (.str (TrimZeros five))) := by
  obtain ⟨five, four, h5, h4, hd5, hd4, hshape, htake, hdrop⟩ := fivePlusFour_parts s h
  have hparse : ParseZip s = .ok (TrimZeros five, TrimZeros four) := by
    rw [← htake, ← hdrop]
    rcases h with h | h | h
    · exact ParseZip_of_nine s h
    · exact ParseZip_of_five 45 (Or.inl rfl) s h
    · exact ParseZip_of_five 32 (Or.inr rfl) s h
  have hne : s ≠ [] := by
    intro e
    rw [e] at htake
    rw [← htake] at h5
    simp at h5
  refine ⟨five, four, h5, h4, hd5, hd4, hshape, hparse, (TrimZeros_strip five).1,
    (TrimZeros_strip five).2, (TrimZeros_strip four).1, (TrimZeros_strip four).2,
    TrimZeros_of_head five, TrimZeros_of_head four, ?_⟩
  intro L r r' hz hpost
  exact postProcess_zip L r r' s _ hz hne hparse hpost

/-- C19, amended, on "00501-0012". -/
theorem ParseZip_fivePlusFour_witness :
    FivePlusFourShape (goStr "00501-0012") ∧
    ∃ five four : GoString, five.length = 5 ∧ four.length = 4 ∧
      ParseZip (goStr "00501-0012") = .ok (TrimZeros five, TrimZeros four) :=
  ⟨Or.inr (Or.inl (by decide)),
   match ParseZip_fivePlusFour (goStr "00501-0012") (Or.inr (Or.inl (by decide))) with
   | ⟨five, four, h5, h4, _, _, _, hp, _⟩ => ⟨five, four, h5, h4, hp⟩⟩

/-! ### The header map across calls -/

theorem mapGet_mapSet (m : HeaderMap) (k name : GoString) (i : Nat) :
    mapGet (mapSet m k i) name = if k = name then some i else mapGet m name := by
  simp [mapSet, mapGet]

theorem bindFields_agree (L : Lib) (schema : Schema) (i : Nat) (cell : GoString)
    (fs : List Field) (m1 m2 : HeaderMap) (h : AgreeOn schema m1 m2) :
    SameBinding schema (bindFields L i cell fs m1) (bindFields L i cell fs m2) := by
  induction fs generalizing m1 m2 with
  | nil => exact h
  | cons f fs ih =>
    unfold bindFields
    cases f.csv with
    | none => exact ih m1 m2 h
    | some rgx =>
      simp only
      cases L.matchString (if rgx = goStr "-" then f.Name else rgx) cell with
      | none => exact rfl
      | some b =>
        cases b with
        | false => exact ih m1 m2 h
        | true =>
          apply ih
          intro g hg
          rw [mapGet_mapSet, mapGet_mapSet, h g hg]

theorem bindHeader_agree (L : Lib) (schema : Schema) (i : Nat) (cells : Row)
    (m1 m2 : HeaderMap) (h : AgreeOn schema m1 m2) :
    SameBinding schema (bindHeader L schema i cells m1) (bindHeader L schema i cells m2) := by
  induction cells generalizing i m1 m2 with
  | nil => exact h
  | cons c cs ih =>
    unfold bindHeader
    have hf := bindFields_agree L schema i c schema m1 m2 h
    cases h1 : bindFields L i c schema m1 <;> cases h2 : bindFields L i c schema m2 <;>
      rw [h1, h2] at hf <;> simp only [SameBinding] at hf <;>
      first
        | exact ih (i + 1) _ _ hf
        | (subst hf; exact rfl)

theorem assignField_congr (L : Lib) (h1 h2 : HeaderMap) (csvRow : Row) (f : Field)
    (r : Record) (h : mapGet h1 f.Name = mapGet h2 f.Name) :
    assignField L h1 csvRow f r = assignField L h2 csvRow f r := by
  unfold assignField
  rw [h]

theorem fieldLoop_congr (L : Lib) (h1 h2 : HeaderMap) (csvRow : Row) (n j : Nat)
    (fs : List Field) (r : Record) (h : ∀ f ∈ fs, mapGet h1 f.Name = mapGet h2 f.Name) :
    fieldLoop L h1 csvRow n j fs r = fieldLoop L h2 csvRow n j fs r := by
  induction fs generalizing j r with
  | nil => rfl
  | cons f fs ih =>
    unfold fieldLoop
    rw [assignField_congr L h1 h2 csvRow f r (h f (List.mem_cons_self _ _))]
    congr 1
    funext r1
    congr 1
    funext r2
    exact ih (j + 1) r2 (fun g hg => h g (List.mem_cons_of_mem _ hg))

theorem rowLoop_congr (L : Lib) (h1 h2 : HeaderMap) (schema : Schema)
    (addressable ptrElem : Bool) (body : List Row) (items : List Record)
    (h : AgreeOn schema h1 h2) :
    rowLoop L h1 schema addressable ptrElem body items =
      rowLoop L h2 schema addressable ptrElem body items := by
  induction body generalizing items with
  | nil => rfl
  | cons csvRow rest ih =>
    unfold rowLoop materialize
    rw [fieldLoop_congr L h1 h2 csvRow _ _ schema _ h]
    congr 1
    funext r
    congr 1
    funext slice2
    exact ih slice2

/-- C18, as stated, fails: the header map of a decoder survives its calls. The same input
(header `Zip`, `Town`) decoded into the same struct gives a record with an empty `City`
from a fresh decoder, and a record with `City` = "Corona" from a decoder whose map still
binds `City` to column 1 (an entry left by the decode of an input with a `City` column). -/
theorem DecodeCSV_depends_on_header_map :
    DecodeCSV asciiLib ⟨[], townInput⟩ (.sliceOfStruct true true citySchema []) =
      .ok (⟨[(goStr "Zip", 0)], .records []⟩,
        [[(goStr "Zip", .str (goStr "92882")), (goStr "Zip4", .str []),
          (goStr "City", .str [])]]) ∧
    DecodeCSV asciiLib ⟨[(goStr "City", 1), (goStr "Zip", 0)], townInput⟩
        (.sliceOfStruct true true citySchema []) =
      .ok (⟨[(goStr "Zip", 0), (goStr "City", 1), (goStr "Zip", 0)], .records []⟩,
        [[(goStr "Zip", .str (goStr "92882")), (goStr "Zip4", .str []),
          (goStr "City", .str (goStr "Corona"))]]) :=
  ⟨by decide, by decide⟩

/-- The records produced (or the failure) depend on the header map only through the
entries it holds for the schema's field names: two initial maps with the same entries for
these names, in particular two empty maps, give the same records or the same failure. -/
theorem DecodeCSV_header_map_dependence (L : Lib) (file : Scan) (h1 h2 : HeaderMap)
    (addressable ptrElem : Bool) (schema : Schema) (items : List Record)
    (h : ∀ f ∈ schema, mapGet h1 f.Name = mapGet h2 f.Name) :
    recordsOf (DecodeCSV L ⟨h1, file⟩ (.sliceOfStruct addressable ptrElem schema items)) =
      recordsOf (DecodeCSV L ⟨h2, file⟩ (.sliceOfStruct addressable ptrElem schema items)) := by
  unfold DecodeCSV
  cases GetCSVRows file with
  | error e => rfl
  | panic p => rfl
  | fatal e => rfl
  | ok csvRows =>
    cases csvRows with
    | nil => rfl
    | cons headerRow body =>
      simp only [Outcome.bind]
      cases CheckForDoubleHeaderNames headerRow with
      | some e => rfl
      | none =>
        simp only
        have hb := bindHeader_agree L schema 0 headerRow h1 h2 h
        cases e1 : bindHeader L schema 0 headerRow h1 <;>
          cases e2 : bindHeader L schema 0 headerRow h2 <;>
          rw [e1, e2] at hb <;> simp only [SameBinding] at hb
        · rename_i m1 m2
          simp only [rowLoop_congr L m1 m2 schema addressable ptrElem body items hb]
          cases rowLoop L m2 schema addressable ptrElem body items <;> rfl
        all_goals first
          | exact hb.elim
          | (subst hb; rfl)

/-- Two maps that differ only in an entry for a name outside the schema give the same
records. -/
theorem DecodeCSV_header_map_dependence_witness :
    recordsOf (DecodeCSV asciiLib ⟨[], townInput⟩ (.sliceOfStruct true true citySchema [])) =
      recordsOf (DecodeCSV asciiLib ⟨[(goStr "Phone", 7)], townInput⟩
        (.sliceOfStruct true true citySchema [])) :=
  DecodeCSV_header_map_dependence asciiLib townInput [] [(goStr "Phone", 7)] true true
    citySchema [] (by
      intro f hf
      simp only [citySchema, List.mem_cons, List.mem_singleton, List.not_mem_nil,
        or_false] at hf
      rcases hf with rfl | rfl | rfl <;> decide)

theorem lastIndexFrom_all_false (p : GoString → Bool) (i : Nat) (cs : Row) (acc : Option Nat)
    (h : ∀ c ∈ cs, p c = false) : lastIndexFrom p i cs acc = acc := by
  induction cs generalizing i acc with
  | nil => rfl
  | cons c cs ih =>
    simp only [lastIndexFrom, h c (List.mem_cons_self _ _), Bool.false_eq_true, if_false]
    exact ih _ _ (fun x hx => h x (List.mem_cons_of_mem _ hx))

theorem DecodeCSV_eq_ok (L : Lib) (d d' : CSVDecoder) (addressable ptrElem : Bool)
    (schema : Schema) (items out : List Record) (headerRow : Row) (body : List Row)
    (hrows : GetCSVRows d.file = .ok (headerRow :: body))
    (h : DecodeCSV L d (.sliceOfStruct addressable ptrElem schema items) = .ok (d', out)) :
    bindHeader L schema 0 headerRow d.header = .ok d'.header ∧
    rowLoop L d'.header schema addressable ptrElem body items = .ok out := by
  unfold DecodeCSV at h
  simp only [hrows, Outcome.bind] at h
  cases hc : CheckForDoubleHeaderNames headerRow with
  | some e => simp [hc] at h
  | none =>
    simp only [hc] at h
    cases hb : bindHeader L schema 0 headerRow d.header with
    | ok header =>
      simp only [hb] at h
      cases hl : rowLoop L header schema addressable ptrElem body items with
      | ok slice =>
        simp only [hl, Outcome.ok.injEq, Prod.mk.injEq] at h
        obtain ⟨hd, hs⟩ := h
        subst hd hs
        exact ⟨rfl, hl⟩
      | error e => simp [hl] at h
      | panic p => simp [hl] at h
      | fatal e => simp [hl] at h
    | error e => simp [hb] at h
    | panic p => simp [hb] at h
    | fatal e => simp [hb] at h

/-- C18, amended: the header map persists. When a call returns, the map left in the decoder
holds for every name the last column bound in this call or, when no header cell matched a
field of that name, the entry the map held before the call; the records of the call are
made from this map. The records (or the failure) therefore depend on the rows, the schema
and the entries the initial map holds for the schema's field names: two initial maps with
the same entries for these names give the same records. -/
theorem DecodeCSV_header_map_persists (L : Lib) (file : Scan) (h1 : HeaderMap)
    (addressable ptrElem : Bool) (schema : Schema) (items : List Record) :
    (∀ (d' : CSVDecoder) (out : List Record) (headerRow : Row) (body : List Row),
      GetCSVRows file = .ok (headerRow :: body) →
      DecodeCSV L ⟨h1, file⟩ (.sliceOfStruct addressable ptrElem schema items) = .ok (d', out) →
      (∀ name, mapGet d'.header name =
        lastIndexFrom (hits L schema name) 0 headerRow (mapGet h1 name)) ∧
      (∀ name, (∀ cell ∈ headerRow, hits L schema name cell = false) →
        mapGet d'.header name = mapGet h1 name) ∧
      (∀ k row, body.get? k = some row →
        ∃ r, materialize L d'.header schema row = .ok r ∧
          out.get? (items.length + k) = some r)) ∧
    (∀ h2 : HeaderMap, (∀ f ∈ schema, mapGet h1 f.Name = mapGet h2 f.Name) →
      recordsOf (DecodeCSV L ⟨h1, file⟩ (.sliceOfStruct addressable ptrElem schema items)) =
        recordsOf
          (DecodeCSV L ⟨h2, file⟩ (.sliceOfStruct addressable ptrElem schema items))) := by
  refine ⟨?_, fun h2 h =>
    DecodeCSV_header_map_dependence L file h1 h2 addressable ptrElem schema items h⟩
  intro d' out headerRow body hrows h
  obtain ⟨hb, hl⟩ := DecodeCSV_eq_ok L ⟨h1, file⟩ d' addressable ptrElem schema items out
    headerRow body hrows h
  have hget := bindHeader_get L schema 0 headerRow h1 d'.header hb
  refine ⟨hget, ?_, ?_⟩
  · intro name hno
    rw [hget name, lastIndexFrom_all_false _ _ _ _ hno]
  · intro k row hk
    obtain ⟨recs, hout, -, hall⟩ :=
      rowLoop_eq_ok L d'.header schema addressable ptrElem body items out hl
    obtain ⟨r, hr, hrk⟩ := hall k row hk
    refine ⟨r, hr, ?_⟩
    rw [hout]
    simp only [List.get?_eq_getElem?] at hrk ⊢
    rw [List.getElem?_append_right (Nat.le_add_right _ _)]
    simpa using hrk

/-- C18, amended, on a decoder whose map binds `City` to column 1 from an earlier decode:
no cell of the header `Zip`, `Town` matches `City`, the entry is still there after the
call, and the record of the row is made from the map that holds it. -/
theorem DecodeCSV_header_map_persists_witness :
    mapGet [(goStr "Zip", 0), (goStr "City", 1), (goStr "Zip", 0)] (goStr "City") =
      mapGet [(goStr "City", 1), (goStr "Zip", 0)] (goStr "City") ∧
    ∃ r, materialize asciiLib [(goStr "Zip", 0), (goStr "City", 1), (goStr "Zip", 0)]
        citySchema [goStr "92882", goStr "Corona"] = .ok r ∧
      [[(goStr "Zip", Value.str (goStr "92882")), (goStr "Zip4", Value.str []),
        (goStr "City", Value.str (goStr "Corona"))]].get? (([] : List Record).length + 0)
        = some r :=
  ⟨((DecodeCSV_header_map_persists asciiLib townInput [(goStr "City", 1), (goStr "Zip", 0)]
        true true citySchema []).1
      ⟨[(goStr "Zip", 0), (goStr "City", 1), (goStr "Zip", 0)], .records []⟩
      [[(goStr "Zip", .str (goStr "92882")), (goStr "Zip4", .str []),
        (goStr "City", .str (goStr "Corona"))]]
      [goStr "Zip", goStr "Town"] [[goStr "92882", goStr "Corona"]]
      (by decide) (by decide)).2.1 (goStr "City") (by decide),
   ((DecodeCSV_header_map_persists asciiLib townInput [(goStr "City", 1), (goStr "Zip", 0)]
        true true citySchema []).1
      ⟨[(goStr "Zip", 0), (goStr "City", 1), (goStr "Zip", 0)], .records []⟩
      [[(goStr "Zip", .str (goStr "92882")), (goStr "Zip4", .str []),
        (goStr "City", .str (goStr "Corona"))]]
      [goStr "Zip", goStr "Town"] [[goStr "92882", goStr "Corona"]]
      (by decide) (by decide)).2.2 0 [goStr "92882", goStr "Corona"] rfl⟩

/-! ### TCase -/

theorem asciiLib_asciiText : AsciiText asciiLib :=
  fun _ _ => ⟨rfl, rfl, rfl⟩

theorem asciiLower_lt (b : Nat) (h : b < 128) : asciiLower b < 128 := by
  unfold asciiLower
  split <;> omega

theorem asciiLower_not_upper (b : Nat) : isUpperLetter (asciiLower b) = false := by
  unfold asciiLower isUpperLetter
  split <;> simp <;> omega

theorem asciiUpper_le (b : Nat) : asciiUpper b ≤ b := by
  unfold asciiUpper
  split <;> omega

theorem asciiUpper_not_lower (b : Nat) : isLowerLetter (asciiUpper b) = false := by
  unfold asciiUpper isLowerLetter
  split <;> simp <;> omega

theorem isWordByte_asciiUpper (b : Nat) : isWordByte (asciiUpper b) = isWordByte b := by
  unfold asciiUpper
  split
  · rename_i h
    have h1 : isWordByte (b - 32) = true := by
      simp only [isWordByte, isAlnum, Bool.or_eq_true, Bool.and_eq_true, decide_eq_true_eq,
        beq_iff_eq]
      omega
    have h2 : isWordByte b = true := by
      simp only [isWordByte, isAlnum, Bool.or_eq_true, Bool.and_eq_true, decide_eq_true_eq,
        beq_iff_eq]
      omega
    rw [h1, h2]
  · rfl

theorem asciiTitle_lt (start : Bool) (s : GoString) (h : ∀ b ∈ s, b < 128) :
    ∀ b ∈ asciiTitle start s, b < 128 := by
  induction s generalizing start with
  | nil => simp [asciiTitle]
  | cons c s ih =>
    intro b hb
    simp only [asciiTitle, List.mem_cons] at hb
    rcases hb with rfl | hb
    · have hc := h c (List.mem_cons_self _ _)
      split
      · exact Nat.lt_of_le_of_lt (asciiUpper_le c) hc
      · exact hc
    · exact ih _ (fun x hx => h x (List.mem_cons_of_mem _ hx)) b hb

theorem titled_asciiTitle (start : Bool) (s : GoString)
    (h : ∀ b ∈ s, isUpperLetter b = false) : titled start (asciiTitle start s) = true := by
  induction s generalizing start with
  | nil => rfl
  | cons c s ih =>
    have hc := h c (List.mem_cons_self _ _)
    have ih' := ih (!(isAlnum c || c == 95)) (fun x hx => h x (List.mem_cons_of_mem _ hx))
    cases start with
    | true =>
      simp only [asciiTitle, titled, if_true, asciiUpper_not_lower, Bool.not_false,
        Bool.true_and, isWordByte_asciiUpper]
      exact ih'
    | false =>
      simp only [asciiTitle, titled, Bool.false_eq_true, if_false, hc, Bool.not_false,
        Bool.true_and]
      exact ih'

theorem asciiSpace_not_word (b : Nat) (h : asciiSpace b = true) : isWordByte b = false := by
  simp only [asciiSpace, Bool.or_eq_true, Bool.and_eq_true, decide_eq_true_eq,
    beq_iff_eq] at h
  simp only [isWordByte, isAlnum, Bool.or_eq_false_iff, Bool.and_eq_false_iff,
    decide_eq_false_iff_not, beq_eq_false_iff_ne]
  omega

theorem titled_dropWhile (t : GoString) (h : titled true t = true) :
    titled true (t.dropWhile asciiSpace) = true := by
  induction t with
  | nil => rfl
  | cons b s ih =>
    by_cases hb : asciiSpace b = true
    · simp only [List.dropWhile, hb]
      apply ih
      simp only [titled, asciiSpace_not_word b hb, Bool.not_false, Bool.and_eq_true] at h
      exact h.2
    · simp only [List.dropWhile, hb]
      exact h

theorem titled_prefix (start : Bool) (a c : GoString) (h : titled start (a ++ c) = true) :
    titled start a = true := by
  induction a generalizing start with
  | nil => rfl
  | cons b a ih =>
    simp only [List.cons_append, titled, Bool.and_eq_true] at h ⊢
    exact ⟨h.1, ih _ h.2⟩

theorem trimAscii_props (u : GoString) :
    (∀ b, (trimAscii u).head? = some b → asciiSpace b = false) ∧
    (∀ b, (trimAscii u).getLast? = some b → asciiSpace b = false) ∧
    ∃ c, u.dropWhile asciiSpace = trimAscii u ++ c := by
  have hpre : trimAscii u <+: u.dropWhile asciiSpace :=
    List.rdropWhile_prefix asciiSpace (u.dropWhile asciiSpace)
  obtain ⟨c, hc⟩ := hpre
  refine ⟨?_, ?_, c, hc.symm⟩
  · intro b hb
    have hhead : (u.dropWhile asciiSpace).head? = some b := by
      rw [← hc]
      cases ht : trimAscii u with
      | nil => simp [ht] at hb
      | cons x xs =>
        rw [ht] at hb
        simpa using hb
    have := List.head?_dropWhile_not asciiSpace u
    rw [hhead] at this
    simpa using this
  · intro b hb
    have hne : List.rdropWhile asciiSpace (u.dropWhile asciiSpace) ≠ [] := by
      intro e
      have : trimAscii u = [] := e
      simp [this] at hb
    have hlast := List.rdropWhile_last_not asciiSpace (u.dropWhile asciiSpace) hne
    have hb' : (List.rdropWhile asciiSpace (u.dropWhile asciiSpace)).getLast? = some b := hb
    rw [List.getLast?_eq_getLast _ hne] at hb'
    simp only [Option.some.injEq] at hb'
    rw [hb'] at hlast
    simpa using hlast

/-- C13, as stated, fails: `TCase` of "ab-cd" is the single token "Ab-Cd", in which an
upper-case letter follows the first character. -/
theorem TCase_token_not_capitalised :
    TCase asciiLib (goStr "ab-cd") = goStr "Ab-Cd" ∧
    (goStr "Ab-Cd").all (fun b => !asciiSpace b) = true ∧
    capitalised (goStr "Ab-Cd") = false :=
  ⟨by decide, by decide, by decide⟩

theorem TCase_titled (L : Lib) (hL : AsciiText L) (s : GoString) (hs : ∀ b ∈ s, b < 128) :
    titled true (TCase L s) = true := by
  have hlow : ∀ b ∈ s.map asciiLower, b < 128 := by
    intro b hb
    obtain ⟨a, ha, rfl⟩ := List.mem_map.1 hb
    exact asciiLower_lt a (hs a ha)
  have hnoup : ∀ b ∈ s.map asciiLower, isUpperLetter b = false := by
    intro b hb
    obtain ⟨a, -, rfl⟩ := List.mem_map.1 hb
    exact asciiLower_not_upper a
  have htitle := asciiTitle_lt true (s.map asciiLower) hlow
  have e : TCase L s = trimAscii (asciiTitle true (s.map asciiLower)) := by
    unfold TCase
    rw [(hL s hs).1, (hL _ hlow).2.1, (hL _ htitle).2.2]
  rw [e]
  obtain ⟨-, -, c, hc⟩ := trimAscii_props (asciiTitle true (s.map asciiLower))
  have h1 := titled_dropWhile _ (titled_asciiTitle true (s.map asciiLower) hnoup)
  rw [hc] at h1
  exact titled_prefix true _ c h1

/-! ### TrimSpace -/

theorem char_valid (c : Char) :
    c.toNat < 55296 ∨ (57343 < c.toNat ∧ c.toNat < 1114112) :=
  c.valid

theorem decodeRune_utf8Encode (c : Char) (rest : GoString) :
    decodeRune (utf8Encode c ++ rest) = (c.toNat, (utf8Encode c).length) := by
  have hv := char_valid c
  unfold utf8Encode
  simp only
  generalize c.toNat = n at hv
  by_cases h1 : n < 128
  · simp [h1, decodeRune]
  · by_cases h2 : n < 2048
    · have a1 : ¬ (192 + n / 64 < 128) := by omega
      have a2 : ¬ (192 + n / 64 < 194 ∨ 244 < 192 + n / 64) := by omega
      have a3 : 192 + n / 64 < 224 := by omega
      have a4 : isCont (128 + n % 64) = true := by
        simp only [isCont, Bool.and_eq_true, decide_eq_true_eq]
        omega
      simp [h1, h2, decodeRune, a1, a2, a3, a4]
      omega
    · by_cases h3 : n < 65536
      · have a1 : ¬ (224 + n / 4096 < 128) := by omega
        have a2 : ¬ (224 + n / 4096 < 194 ∨ 244 < 224 + n / 4096) := by omega
        have a3 : ¬ (224 + n / 4096 < 224) := by omega
        have a3' : 224 + n / 4096 < 240 := by omega
        have a4 : isCont (128 + n % 64) = true := by
          simp only [isCont, Bool.and_eq_true, decide_eq_true_eq]
          omega
        have a5 : acceptLo (224 + n / 4096) ≤ 128 + n / 64 % 64 := by
          unfold acceptLo
          split
          · omega
          · split <;> omega
        have a6 : 128 + n / 64 % 64 ≤ acceptHi (224 + n / 4096) := by
          unfold acceptHi
          split
          · omega
          · split <;> omega
        simp [h1, h2, h3, decodeRune, a1, a2, a3, a3', a4, a5, a6]
        omega
      · have a1 : ¬ (240 + n / 262144 < 128) := by omega
        have a2 : ¬ (240 + n / 262144 < 194 ∨ 244 < 240 + n / 262144) := by omega
        have a3 : ¬ (240 + n / 262144 < 224) := by omega
        have a3' : ¬ (240 + n / 262144 < 240) := by omega
        have a4 : isCont (128 + n % 64) = true := by
          simp only [isCont, Bool.and_eq_true, decide_eq_true_eq]
          omega
        have a4' : isCont (128 + n / 64 % 64) = true := by
          simp only [isCont, Bool.and_eq_true, decide_eq_true_eq]
          omega
        have a5 : acceptLo (240 + n / 262144) ≤ 128 + n / 4096 % 64 := by
          unfold acceptLo
          split
          · omega
          · split <;> omega
        have a6 : 128 + n / 4096 % 64 ≤ acceptHi (240 + n / 262144) := by
          unfold acceptHi
          split
          · omega
          · split <;> omega
        simp [h1, h2, h3, decodeRune, a1, a2, a3, a3', a4, a4', a5, a6]
        omega

theorem utf8Encode_shape (c : Char) :
    (c.toNat < 128 ∧ utf8Encode c = [c.toNat]) ∨
    (∃ s0 s1, utf8Encode c = [s0, s1] ∧ isCont s0 = false ∧ isCont s1 = true) ∨
    (∃ s0 s1 s2, utf8Encode c = [s0, s1, s2] ∧ isCont s0 = false ∧ isCont s1 = true ∧
      isCont s2 = true) ∨
    (∃ s0 s1 s2 s3, utf8Encode c = [s0, s1, s2, s3] ∧ isCont s0 = false ∧
      isCont s1 = true ∧ isCont s2 = true ∧ isCont s3 = true) := by
  have hlead : ∀ a b : Nat, 192 ≤ a → isCont (a + b) = false := by
    intro a b h
    simp only [isCont, Bool.and_eq_false_iff, decide_eq_false_iff_not]
    omega
  have hcont : ∀ r : Nat, isCont (128 + r % 64) = true := by
    intro r
    simp only [isCont, Bool.and_eq_true, decide_eq_true_eq]
    omega
  unfold utf8Encode
  simp only
  by_cases h1 : c.toNat < 128
  · exact Or.inl ⟨h1, by simp [h1]⟩
  · by_cases h2 : c.toNat < 2048
    · exact Or.inr (Or.inl ⟨192 + c.toNat / 64, 128 + c.toNat % 64, by simp [h1, h2],
        hlead 192 _ (by omega), hcont _⟩)
    · by_cases h3 : c.toNat < 65536
      · exact Or.inr (Or.inr (Or.inl ⟨224 + c.toNat / 4096, 128 + c.toNat / 64 % 64,
          128 + c.toNat % 64, by simp [h1, h2, h3],
          hlead 224 _ (by omega), hcont _, hcont _⟩))
      · exact Or.inr (Or.inr (Or.inr ⟨240 + c.toNat / 262144, 128 + c.toNat / 4096 % 64,
          128 + c.toNat / 64 % 64, 128 + c.toNat % 64, by simp [h1, h2, h3],
          hlead 240 _ (by omega), hcont _, hcont _, hcont _⟩))

theorem isCont_ge (b : Nat) (h : isCont b = true) : ¬ b < 128 := by
  simp only [isCont, Bool.and_eq_true, decide_eq_true_eq] at h
  omega

theorem decodeLastRune_utf8Encode (c : Char) (pre : GoString) :
    decodeLastRune (pre ++ utf8Encode c) = (c.toNat, (utf8Encode c).length) := by
  have hE := decodeRune_utf8Encode c []
  rw [List.append_nil] at hE
  rcases utf8Encode_shape c with ⟨h1, he⟩ | ⟨s0, s1, he, c0, c1⟩ | ⟨s0, s1, s2, he, c0, c1, c2⟩ |
      ⟨s0, s1, s2, s3, he, c0, c1, c2, c3⟩
  · rw [he]
    simp [decodeLastRune, h1]
  · rw [he] at hE ⊢
    simp [decodeLastRune, isCont_ge s1 c1, lastStartWidth, c0, hE]
  · rw [he] at hE ⊢
    simp [decodeLastRune, isCont_ge s2 c2, lastStartWidth, c0, c1, hE]
  · rw [he] at hE ⊢
    simp [decodeLastRune, isCont_ge s3 c3, lastStartWidth, c0, c1, c2, hE]

theorem decodeRune_width_pos (s : GoString) (h : s ≠ []) : 1 ≤ (decodeRune s).2 := by
  cases s with
  | nil => exact absurd rfl h
  | cons s0 rest =>
    simp only [decodeRune]
    repeat' split
    all_goals simp

theorem lastStartWidth_pos (r : GoString) (h : r ≠ []) : 1 ≤ lastStartWidth r := by
  rcases r with _ | ⟨a, _ | ⟨b1, tl1⟩⟩
  · exact absurd rfl h
  · simp [lastStartWidth]
  · simp only [lastStartWidth]
    repeat' split
    all_goals simp

theorem decodeLastRune_width_pos (s : GoString) (h : s ≠ []) :
    1 ≤ (decodeLastRune s).2 := by
  unfold decodeLastRune
  have hr : s.reverse ≠ [] := by simpa using h
  cases hrev : s.reverse with
  | nil => exact absurd hrev hr
  | cons last tl =>
    simp only
    split
    · simp
    · split
      · rename_i hk
        rw [hk]
        exact lastStartWidth_pos _ (by simp)
      · simp

theorem isSpaceRune_runeError : isSpaceRune runeError = false := by
  decide

theorem trimLeftLoop_spec (n : Nat) (s : GoString) (h : s.length ≤ n) :
    isSpaceRune (decodeRune (trimLeftLoop n s)).1 = false ∧ trimLeftLoop n s <:+ s := by
  induction n generalizing s with
  | zero =>
    have hs : s = [] := List.length_eq_zero.1 (Nat.le_zero.1 h)
    subst hs
    exact ⟨by simp [trimLeftLoop, decodeRune, isSpaceRune_runeError], List.suffix_refl _⟩
  | succ n ih =>
    by_cases hsp : isSpaceRune (decodeRune s).1 = true
    · have hne : s ≠ [] := by
        intro e
        rw [e] at hsp
        simp [decodeRune, isSpaceRune_runeError] at hsp
      have hw := decodeRune_width_pos s hne
      have hlen : (s.drop (decodeRune s).2).length ≤ n := by
        rw [List.length_drop]
        omega
      obtain ⟨h1, h2⟩ := ih (s.drop (decodeRune s).2) hlen
      simp only [trimLeftLoop, hsp, if_true]
      exact ⟨h1, h2.trans (List.drop_suffix _ _)⟩
    · simp only [trimLeftLoop, hsp, Bool.false_eq_true, if_false]
      exact ⟨by simp [hsp], List.suffix_refl _⟩

theorem trimRightLoop_spec (n : Nat) (s : GoString) (h : s.length ≤ n) :
    isSpaceRune (decodeLastRune (trimRightLoop n s)).1 = false ∧ trimRightLoop n s <+: s := by
  induction n generalizing s with
  | zero =>
    have hs : s = [] := List.length_eq_zero.1 (Nat.le_zero.1 h)
    subst hs
    exact ⟨by simp [trimRightLoop, decodeLastRune, isSpaceRune_runeError],
      List.prefix_refl _⟩
  | succ n ih =>
    by_cases hsp : isSpaceRune (decodeLastRune s).1 = true
    · have hne : s ≠ [] := by
        intro e
        rw [e] at hsp
        simp [decodeLastRune, isSpaceRune_runeError] at hsp
      have hw := decodeLastRune_width_pos s hne
      have hpos : 0 < s.length := List.length_pos.2 hne
      have hlen : (s.take (s.length - (decodeLastRune s).2)).length ≤ n := by
        rw [List.length_take]
        omega
      obtain ⟨h1, h2⟩ := ih (s.take (s.length - (decodeLastRune s).2)) hlen
      simp only [trimRightLoop, hsp, if_true]
      exact ⟨h1, h2.trans (List.take_prefix _ _)⟩
    · simp only [trimRightLoop, hsp, Bool.false_eq_true, if_false]
      exact ⟨by simp [hsp], List.prefix_refl _⟩

theorem stringsTrimSpace_trimmed (s : GoString) :
    ¬ startsWithSpace (stringsTrimSpace s) ∧ ¬ endsWithSpace (stringsTrimSpace s) := by
  obtain ⟨hu, hsuf⟩ := trimLeftLoop_spec s.length s (Nat.le_refl _)
  obtain ⟨ht, hpre⟩ := trimRightLoop_spec s.length (trimLeftLoop s.length s) hsuf.length_le
  refine ⟨?_, ?_⟩
  · rintro ⟨c, hc, e, he⟩
    obtain ⟨e2, he2⟩ := hpre
    have hdec : decodeRune (trimLeftLoop s.length s) = (c.toNat, (utf8Encode c).length) := by
      rw [← he2]
      show decodeRune (stringsTrimSpace s ++ e2) = _
      rw [← he, List.append_assoc]
      exact decodeRune_utf8Encode c (e ++ e2)
    rw [hdec, hc] at hu
    exact Bool.noConfusion hu
  · rintro ⟨c, hc, pre, he⟩
    have hdec : decodeLastRune (stringsTrimSpace s) = (c.toNat, (utf8Encode c).length) := by
      rw [← he]
      exact decodeLastRune_utf8Encode c pre
    have ht' : isSpaceRune (decodeLastRune (stringsTrimSpace s)).1 = false := ht
    rw [hdec, hc] at ht'
    exact Bool.noConfusion ht'

theorem isSpaceRune_ascii (b : Nat) (h : b < 128) : isSpaceRune b = asciiSpace b := by
  have h1 : b ≤ 255 := by omega
  have h2 : (b == 133) = false := by simp; omega
  have h3 : (b == 160) = false := by simp; omega
  simp [isSpaceRune, asciiSpace, h1, h2, h3]

theorem trimLeftLoop_ascii (n : Nat) (s : GoString) (ha : ∀ b ∈ s, b < 128)
    (h : s.length ≤ n) : trimLeftLoop n s = s.dropWhile asciiSpace := by
  induction n generalizing s with
  | zero =>
    have hs : s = [] := List.length_eq_zero.1 (Nat.le_zero.1 h)
    subst hs
    rfl
  | succ n ih =>
    cases s with
    | nil => simp [trimLeftLoop, decodeRune, isSpaceRune_runeError]
    | cons b rest =>
      have hb : b < 128 := ha b (List.mem_cons_self _ _)
      have hd : decodeRune (b :: rest) = (b, 1) := by simp [decodeRune, hb]
      simp only [trimLeftLoop, hd, isSpaceRune_ascii b hb, List.drop_succ_cons, List.drop_zero,
        List.dropWhile_cons]
      split
      · exact ih rest (fun x hx => ha x (List.mem_cons_of_mem _ hx))
          (by simp at h; omega)
      · rfl

theorem trimRightLoop_ascii (n : Nat) (s : GoString) (ha : ∀ b ∈ s, b < 128)
    (h : s.length ≤ n) : trimRightLoop n s = s.rdropWhile asciiSpace := by
  induction n generalizing s with
  | zero =>
    have hs : s = [] := List.length_eq_zero.1 (Nat.le_zero.1 h)
    subst hs
    simp [trimRightLoop]
  | succ n ih =>
    rcases List.eq_nil_or_concat s with rfl | ⟨init, last, rfl⟩
    · simp [trimRightLoop, decodeLastRune, isSpaceRune_runeError]
    · rw [List.concat_eq_append] at ha h ⊢
      have hb : last < 128 := ha last (by simp)
      have hd : decodeLastRune (init ++ [last]) = (last, 1) := by
        simp [decodeLastRune, hb]
      have htake : (init ++ [last]).take ((init ++ [last]).length - 1) = init := by
        simp
      by_cases hsp : asciiSpace last = true
      · simp only [trimRightLoop, hd, isSpaceRune_ascii last hb, hsp, if_true, htake,
          List.rdropWhile_concat]
        exact ih init (fun x hx => ha x (by simp [hx])) (by simp at h; omega)
      · simp only [trimRightLoop, hd, isSpaceRune_ascii last hb, hsp, Bool.false_eq_true,
          if_false, List.rdropWhile_concat]

theorem stringsTrimSpace_ascii (s : GoString) (ha : ∀ b ∈ s, b < 128) :
    stringsTrimSpace s = trimAscii s := by
  have hsuf : s.dropWhile asciiSpace <:+ s := List.dropWhile_suffix _
  unfold stringsTrimSpace
  rw [trimLeftLoop_ascii s.length s ha (Nat.le_refl _),
    trimRightLoop_ascii s.length _ (fun b hb => ha b (hsuf.subset hb)) hsuf.length_le]
  rfl

theorem trimLib_asciiText : AsciiText trimLib :=
  fun s hs => ⟨rfl, rfl, stringsTrimSpace_ascii s hs⟩

/-- C13, amended: for every string and a library whose `TrimSpace` is Go's, `TCase` neither
begins nor ends with a white-space character. For ASCII text and a library that treats
ASCII text as Go does, no lower-case letter of `TCase` begins a word and no upper-case
letter continues one, where a word begins at the start of the text and after every
character that is not a letter, a digit or '_'. -/
theorem TCase_trimmed_and_titled (L : Lib) (s : GoString) :
    ((∀ x, L.trimSpace x = stringsTrimSpace x) →
      ¬ startsWithSpace (TCase L s) ∧ ¬ endsWithSpace (TCase L s)) ∧
    (AsciiText L → (∀ b ∈ s, b < 128) → titled true (TCase L s) = true) := by
  refine ⟨fun hT => ?_, fun hL hs => TCase_titled L hL s hs⟩
  have e : TCase L s = stringsTrimSpace (L.title (L.toLower s)) := by
    unfold TCase
    rw [hT]
  rw [e]
  exact stringsTrimSpace_trimmed _

/-- C13, amended, on the first test string, " apPlE ", with the library whose `TrimSpace`
is that of all byte strings. -/
theorem TCase_trimmed_and_titled_witness :
    TCase trimLib (goStr " apPlE ") = goStr "Apple" ∧
    ¬ startsWithSpace (TCase trimLib (goStr " apPlE ")) ∧
    ¬ endsWithSpace (TCase trimLib (goStr " apPlE ")) ∧
    titled true (TCase trimLib (goStr " apPlE ")) = true :=
  ⟨by decide,
   ((TCase_trimmed_and_titled trimLib (goStr " apPlE ")).1 (fun _ => rfl)).1,
   ((TCase_trimmed_and_titled trimLib (goStr " apPlE ")).1 (fun _ => rfl)).2,
   (TCase_trimmed_and_titled trimLib (goStr " apPlE ")).2 trimLib_asciiText (by decide)⟩

end Csvparse
